import Mathlib

/-!
# GPVRC-asm: encoder, operand parser and two-pass label resolution

A shallow embedding of `src/main.cpp`.

Conventions of the embedding.

* A `std::string` is a `List Char`; a source file is the list of its lines
  (what `std::getline` hands to the loop of `assemble`).
* `uint32_t` values are natural numbers; every conversion into `uint32_t`
  that can lose bits is written `% 2 ^ 32`.  `unsigned long` (the result of
  `std::stoul`) and `size_t` are 64 bits wide (LP64); the size of a vector is
  a natural number as it is, since no vector holds 2 ^ 64 elements.
* Inside an encoder the shifts are taken after its `assert`s, where they
  cannot leave 32 bits.
* A function that can end the process (`std::exit`, a failed `assert`, an
  exception nobody catches) returns an `Option`; `none` is "the process ended
  and nothing was returned".  Text written to `std::cerr` and the line
  numbers that only feed that text are not part of the model.
* `std::bitset<24>` is a natural number reduced `% 2 ^ 24`.
-/

namespace GPVRC

set_option maxRecDepth 4000

/-! ## Tokens -/

/-- The kinds of token, `enum class TokenType`. -/
inductive TokenType where
  | Empty
  | Identifier
  | Number
  | BracketL
  | BracketR
  | Period
  | Invalid
  deriving DecidableEq, Repr

/-- A token, `struct Token`. -/
structure Token where
  type : TokenType
  str : List Char
  deriving DecidableEq, Repr

/-- Classification of a candidate text, `is_prefix_of_token`.  `std::isalpha`,
`std::isalnum` and `std::isdigit` are taken in the "C" locale. -/
def is_prefix_of_token (str : List Char) : TokenType :=
  match str with
  | [] => TokenType.Empty
  | front :: _ =>
    if front = '.' then
      (if str.length = 1 then TokenType.Period else TokenType.Invalid)
    else if front = '[' then
      (if str.length = 1 then TokenType.BracketL else TokenType.Invalid)
    else if front = ']' then
      (if str.length = 1 then TokenType.BracketR else TokenType.Invalid)
    else if front.isAlpha then
      (if str.all Char.isAlphanum then TokenType.Identifier else TokenType.Invalid)
    else if front.isDigit then
      (if str.all Char.isDigit then TokenType.Number else TokenType.Invalid)
    else TokenType.Invalid

/-- The two local variables of `tokenize`: the tokens committed so far and the
growing candidate. -/
structure TokState where
  tokens : List Token
  current : List Char
  deriving DecidableEq, Repr

/-- One turn of the `for` loop of `tokenize`. -/
def tokenize_step (st : TokState) (ch : Char) : TokState :=
  if is_prefix_of_token (st.current ++ [ch]) = TokenType.Invalid then
    let type := is_prefix_of_token st.current
    let tokens :=
      if type ≠ TokenType.Empty ∧ type ≠ TokenType.Invalid then
        st.tokens ++ [{ type := type, str := st.current }]
      else st.tokens
    if is_prefix_of_token [ch] = TokenType.Invalid then
      { tokens := tokens, current := [] }
    else
      { tokens := tokens, current := [ch] }
  else
    { tokens := st.tokens, current := st.current ++ [ch] }

/-- The loop of `tokenize` run over a list of characters. -/
def tokenize_loop (st : TokState) (line : List Char) : TokState :=
  line.foldl tokenize_step st

/-- The end of `tokenize`: a candidate that is left is committed unchecked. -/
def tokenize_finish (st : TokState) : List Token :=
  if st.current ≠ [] then
    st.tokens ++ [{ type := is_prefix_of_token st.current, str := st.current }]
  else st.tokens

/-- Tokens of one line, `tokenize`. -/
def tokenize (line : List Char) : List Token :=
  tokenize_finish (tokenize_loop { tokens := [], current := [] } line)

/-! ## Instruction words -/

/-- Number of general registers, `general_reg_count`. -/
def general_reg_count : Nat := 16

/-- Conversion of an unsigned value into `std::bitset<24>`. -/
def Instruction (v : Nat) : Nat := v % 2 ^ 24

/-- Encoder `generate_reg1_imm16`. -/
def generate_reg1_imm16 (opcode reg imm : Nat) : Option Nat :=
  if opcode < 0xC ∧ reg < general_reg_count ∧ imm < 0x10000 then
    some (Instruction ((opcode <<< 20) ||| (reg <<< 16) ||| imm))
  else none

/-- Encoder `generate_reg2_imm8`. -/
def generate_reg2_imm8 (opcode reg_1 reg_2 imm : Nat) : Option Nat :=
  if opcode < 0x10 ∧ reg_1 < general_reg_count ∧ reg_2 < general_reg_count ∧ imm < 0x100 then
    some (Instruction (0xC00000 ||| (opcode <<< 16) ||| (reg_1 <<< 12) ||| (reg_2 <<< 8) ||| imm))
  else none

/-- Encoder `generate_imm16`. -/
def generate_imm16 (opcode imm : Nat) : Option Nat :=
  if opcode < 0x10 ∧ imm < 0x10000 then
    some (Instruction (0xD00000 ||| (opcode <<< 16) ||| imm))
  else none

/-- Encoder `generate_reg3`. -/
def generate_reg3 (opcode reg_dest reg_src1 reg_src2 : Nat) : Option Nat :=
  if opcode < 0x100 ∧ reg_dest < general_reg_count ∧ reg_src1 < general_reg_count
      ∧ reg_src2 < general_reg_count then
    some (Instruction (0xE00000 ||| (opcode <<< 12) ||| (reg_dest <<< 8) ||| (reg_src1 <<< 4)
      ||| reg_src2))
  else none

/-- Encoder `generate_reg1_imm8`. -/
def generate_reg1_imm8 (opcode reg imm : Nat) : Option Nat :=
  if opcode < 0x80 ∧ reg < general_reg_count ∧ imm < 0x100 then
    some (Instruction (0xF00000 ||| (opcode <<< 12) ||| (reg <<< 8) ||| imm))
  else none

/-- Encoder `generate_reg2`. -/
def generate_reg2 (opcode reg_1 reg_2 : Nat) : Option Nat :=
  if opcode < 0x400 ∧ reg_1 < general_reg_count ∧ reg_2 < general_reg_count then
    some (Instruction (0xF80000 ||| (opcode <<< 8) ||| (reg_1 <<< 4) ||| reg_2))
  else none

/-- Encoder `generate_imm8`. -/
def generate_imm8 (opcode imm : Nat) : Option Nat :=
  if opcode < 0x200 ∧ imm < 0x100 then
    some (Instruction (0xFC0000 ||| (opcode <<< 8) ||| imm))
  else none

/-- Encoder `generate_reg1`. -/
def generate_reg1 (opcode reg : Nat) : Option Nat :=
  if opcode < 0x1000 ∧ reg < general_reg_count then
    some (Instruction (0xFE0000 ||| (opcode <<< 4) ||| reg))
  else none

/-- Encoder `generate_no_operands`. -/
def generate_no_operands (opcode : Nat) : Option Nat :=
  if opcode < 0x10000 then
    some (Instruction (0xFF0000 ||| opcode))
  else none

/-! ## Operand parser -/

/-- Value of a decimal digit character. -/
def digit_value (c : Char) : Nat := c.toNat - 48

/-- Model of `std::stoul` (base 10) on a token text: the longest run of decimal
digits at the front is converted; no digit at the front is
`std::invalid_argument`, a value that does not fit `unsigned long` is
`std::out_of_range`, both uncaught.  Token texts hold letters and digits only,
so the leading blanks and the sign that `strtoul` also accepts never occur and
are not modelled. -/
def stoul (str : List Char) : Option Nat :=
  let digits := str.takeWhile Char.isDigit
  if digits = [] then none
  else
    let v := digits.foldl (fun acc c => 10 * acc + digit_value c) 0
    if v < 2 ^ 64 then some v else none

/-- Register operand, `parse_reg`: the value and the tokens left.  The three
checks of the shape of the text and the check `reg_id >= general_reg_count`
only print and are therefore absent; `substr(1)` is `drop 1`. -/
def parse_reg (tokens : List Token) : Option (Nat × List Token) :=
  match tokens with
  | [] => none
  | token :: rest =>
    if token.type ≠ TokenType.Identifier then none
    else
      match stoul (token.str.drop 1) with
      | none => none
      | some v => some (v % 2 ^ 32, rest)

/-- The label table, `std::map<std::string, size_t>`, as an association list
whose newest binding of a key shadows the older ones. -/
abbrev Labels := List (List Char × Nat)

/-- Lookup, `labels.find`. -/
def Labels.find (labels : Labels) (name : List Char) : Option Nat :=
  List.lookup name labels

/-- Assignment, `labels[name] = value`. -/
def Labels.set (labels : Labels) (name : List Char) (value : Nat) : Labels :=
  (name, value) :: labels

/-- Immediate operand, `parse_imm`: the value and the tokens left. -/
def parse_imm (tokens : List Token) (labels : Labels) : Option (Nat × List Token) :=
  match tokens with
  | [] => none
  | token :: rest =>
    if token.type = TokenType.Number then
      match stoul token.str with
      | none => none
      | some v => some (v % 2 ^ 32, rest)
    else if token.type = TokenType.Period then
      match rest with
      | [] => none
      | token_second :: rest2 =>
        if token_second.type ≠ TokenType.Identifier then none
        else
          match labels.find token_second.str with
          | none => none
          | some v => some (v % 2 ^ 32, rest2)
    else none

/-- Operand layouts, `enum class OperandsType`. -/
inductive OperandsType where
  | Reg1Imm16
  | Reg2Imm8
  | Imm16
  | Reg3
  | Reg1Imm8
  | Reg2
  | Imm8
  | Reg1
  | Empty
  | Invalid
  deriving DecidableEq, Repr

/-- Operands of one instruction parsed and encoded, `generate`. -/
def generate (op_type : OperandsType) (op_code : Nat) (tokens : List Token)
    (labels : Labels) : Option Nat :=
  match op_type with
  | OperandsType.Reg1Imm16 => do
    let (reg, tokens) ← parse_reg tokens
    let (imm, _) ← parse_imm tokens labels
    generate_reg1_imm16 op_code reg imm
  | OperandsType.Reg2Imm8 => do
    let (reg1, tokens) ← parse_reg tokens
    let (reg2, tokens) ← parse_reg tokens
    let (imm, _) ← parse_imm tokens labels
    generate_reg2_imm8 op_code reg1 reg2 imm
  | OperandsType.Imm16 => do
    let (imm, _) ← parse_imm tokens labels
    generate_imm16 op_code imm
  | OperandsType.Reg3 => do
    let (reg1, tokens) ← parse_reg tokens
    let (reg2, tokens) ← parse_reg tokens
    let (reg3, _) ← parse_reg tokens
    generate_reg3 op_code reg1 reg2 reg3
  | OperandsType.Reg1Imm8 => do
    let (reg, tokens) ← parse_reg tokens
    let (imm, _) ← parse_imm tokens labels
    generate_reg1_imm8 op_code reg imm
  | OperandsType.Reg2 => do
    let (reg1, tokens) ← parse_reg tokens
    let (reg2, _) ← parse_reg tokens
    generate_reg2 op_code reg1 reg2
  | OperandsType.Imm8 => do
    let (imm, _) ← parse_imm tokens labels
    generate_imm8 op_code imm
  | OperandsType.Reg1 => do
    let (reg, _) ← parse_reg tokens
    generate_reg1 op_code reg
  | OperandsType.Empty => generate_no_operands op_code
  | OperandsType.Invalid => none

/-- The chain of comparisons on `op` in `assemble_impl`: the layout and the
opcode of a mnemonic, `(Invalid, 0)` for any other text. -/
def op_table (op : List Char) : OperandsType × Nat :=
  if op = "add".toList then (OperandsType.Reg3, 0x00)
  else if op = "sub".toList then (OperandsType.Reg3, 0x01)
  else if op = "umul".toList then (OperandsType.Reg3, 0x02)
  else if op = "imul".toList then (OperandsType.Reg3, 0x03)
  else if op = "udiv".toList then (OperandsType.Reg3, 0x04)
  else if op = "umod".toList then (OperandsType.Reg3, 0x06)
  else if op = "addi".toList then (OperandsType.Reg2Imm8, 0x00)
  else if op = "subi".toList then (OperandsType.Reg2Imm8, 0x01)
  else if op = "shli".toList then (OperandsType.Reg2Imm8, 0x04)
  else if op = "shri".toList then (OperandsType.Reg2Imm8, 0x05)
  else if op = "load".toList then (OperandsType.Reg2, 0x000)
  else if op = "store".toList then (OperandsType.Reg2, 0x001)
  else if op = "jez".toList then (OperandsType.Reg2, 0x010)
  else if op = "jnz".toList then (OperandsType.Reg2, 0x011)
  else if op = "not".toList then (OperandsType.Reg2, 0x100)
  else if op = "neg".toList then (OperandsType.Reg2, 0x101)
  else if op = "cid".toList then (OperandsType.Reg1, 0x000)
  else if op = "jmp".toList then (OperandsType.Reg1, 0x010)
  else if op = "loadi".toList then (OperandsType.Reg1Imm16, 0x0)
  else if op = "jezi".toList then (OperandsType.Reg1Imm16, 0x2)
  else if op = "jnzi".toList then (OperandsType.Reg1Imm16, 0x3)
  else if op = "jmpi".toList then (OperandsType.Imm16, 0x0)
  else if op = "exit".toList then (OperandsType.Empty, 0xffff)
  else (OperandsType.Invalid, 0)

/-- One instruction line turned into its word, `assemble_impl`. -/
def assemble_impl (tokens : List Token) (labels : Labels) : Option Nat :=
  match tokens with
  | [] => none
  | front :: rest =>
    if front.type ≠ TokenType.Identifier then none
    else generate (op_table front.str).1 (op_table front.str).2 rest labels

/-! ## The two passes -/

/-- Longest line accepted, `line_length_max`. -/
def line_length_max : Nat := 256

/-- The two containers filled by the first loop of `assemble`. -/
structure ScanState where
  instruction_tokens : List (List Token)
  labels : Labels
  deriving DecidableEq, Repr

/-- Body of the first loop of `assemble` for one line. -/
def scan_line (st : ScanState) (line : List Char) : Option ScanState :=
  if line.length > line_length_max then none
  else
    match tokenize line with
    | [] => some st
    | front :: rest =>
      if front.type = TokenType.Period then
        match rest with
        | [] => none
        | second :: _ =>
          some { instruction_tokens := st.instruction_tokens,
                 labels := st.labels.set second.str st.instruction_tokens.length }
      else
        some { instruction_tokens := st.instruction_tokens ++ [front :: rest],
               labels := st.labels }

/-- First loop of `assemble` over the lines that are left. -/
def scan (st : ScanState) : List (List Char) → Option ScanState
  | [] => some st
  | line :: rest =>
    match scan_line st line with
    | none => none
    | some st2 => scan st2 rest

/-- Second loop of `assemble`: one word for each recorded line, in order. -/
def emit (labels : Labels) : List (List Token) → Option (List Nat)
  | [] => some []
  | tokens :: rest =>
    match assemble_impl tokens labels with
    | none => none
    | some inst =>
      match emit labels rest with
      | none => none
      | some insts => some (inst :: insts)

/-- The assembler, `assemble`, on the lines of its input. -/
def assemble (lines : List (List Char)) : Option (List Nat) :=
  match scan { instruction_tokens := [], labels := [] } lines with
  | none => none
  | some st => emit st.labels st.instruction_tokens

/-! ## Vocabulary of the specification -/

/-- Bit field `bits[hi:lo]` of a word (bit 0 is the least significant). -/
def bits (hi lo w : Nat) : Nat := (w >>> lo) % 2 ^ (hi + 1 - lo)

/-- Selector of a layout: the range its leading bits lie in (table of 4.3). -/
def selector (s : OperandsType) (w : Nat) : Bool :=
  match s with
  | OperandsType.Reg1Imm16 => bits 23 20 w < 0xC
  | OperandsType.Reg2Imm8 => bits 23 20 w = 0xC
  | OperandsType.Imm16 => bits 23 20 w = 0xD
  | OperandsType.Reg3 => bits 23 20 w = 0xE
  | OperandsType.Reg1Imm8 => 0xF0 ≤ bits 23 16 w ∧ bits 23 16 w ≤ 0xF7
  | OperandsType.Reg2 => 0xF8 ≤ bits 23 16 w ∧ bits 23 16 w ≤ 0xFB
  | OperandsType.Imm8 => 0xFC ≤ bits 23 16 w ∧ bits 23 16 w ≤ 0xFD
  | OperandsType.Reg1 => bits 23 16 w = 0xFE
  | OperandsType.Empty => bits 23 16 w = 0xFF
  | OperandsType.Invalid => false

/-- A word that the encoder of the layout returns for some arguments. -/
def generated_by (s : OperandsType) (w : Nat) : Prop :=
  match s with
  | OperandsType.Reg1Imm16 => ∃ opcode reg imm, generate_reg1_imm16 opcode reg imm = some w
  | OperandsType.Reg2Imm8 =>
    ∃ opcode reg_1 reg_2 imm, generate_reg2_imm8 opcode reg_1 reg_2 imm = some w
  | OperandsType.Imm16 => ∃ opcode imm, generate_imm16 opcode imm = some w
  | OperandsType.Reg3 =>
    ∃ opcode reg_dest reg_src1 reg_src2,
      generate_reg3 opcode reg_dest reg_src1 reg_src2 = some w
  | OperandsType.Reg1Imm8 => ∃ opcode reg imm, generate_reg1_imm8 opcode reg imm = some w
  | OperandsType.Reg2 => ∃ opcode reg_1 reg_2, generate_reg2 opcode reg_1 reg_2 = some w
  | OperandsType.Imm8 => ∃ opcode imm, generate_imm8 opcode imm = some w
  | OperandsType.Reg1 => ∃ opcode reg, generate_reg1 opcode reg = some w
  | OperandsType.Empty => ∃ opcode, generate_no_operands opcode = some w
  | OperandsType.Invalid => False

/-- Number of register operands of a layout. -/
def reg_count (s : OperandsType) : Nat :=
  match s with
  | OperandsType.Reg1Imm16 => 1
  | OperandsType.Reg2Imm8 => 2
  | OperandsType.Imm16 => 0
  | OperandsType.Reg3 => 3
  | OperandsType.Reg1Imm8 => 1
  | OperandsType.Reg2 => 2
  | OperandsType.Imm8 => 0
  | OperandsType.Reg1 => 1
  | OperandsType.Empty => 0
  | OperandsType.Invalid => 0

/-- Whether a layout ends in an immediate operand. -/
def has_imm (s : OperandsType) : Bool :=
  match s with
  | OperandsType.Reg1Imm16 => true
  | OperandsType.Reg2Imm8 => true
  | OperandsType.Imm16 => true
  | OperandsType.Reg1Imm8 => true
  | OperandsType.Imm8 => true
  | _ => false

/-- The immediate field of a word of the layout: `bits[15:0]` for the 16-bit
immediates and `bits[7:0]` for the 8-bit ones. -/
def imm_field (s : OperandsType) (w : Nat) : Nat :=
  match s with
  | OperandsType.Reg1Imm16 => bits 15 0 w
  | OperandsType.Imm16 => bits 15 0 w
  | OperandsType.Reg2Imm8 => bits 7 0 w
  | OperandsType.Reg1Imm8 => bits 7 0 w
  | OperandsType.Imm8 => bits 7 0 w
  | _ => 0

/-- The 23 mnemonics of the table. -/
def mnemonics : List (List Char) :=
  ["add".toList, "sub".toList, "umul".toList, "imul".toList, "udiv".toList, "umod".toList,
   "addi".toList, "subi".toList, "shli".toList, "shri".toList, "load".toList,
   "store".toList, "jez".toList, "jnz".toList, "not".toList, "neg".toList, "cid".toList,
   "jmp".toList, "loadi".toList, "jezi".toList, "jnzi".toList, "jmpi".toList,
   "exit".toList]

/-- Tokens of a line that the first pass records as an instruction: not empty
and not starting with a `Period`. -/
def is_instruction_tokens (tokens : List Token) : Bool :=
  match tokens with
  | [] => false
  | front :: _ => front.type ≠ TokenType.Period

/-- A line that is neither blank nor a label declaration. -/
def is_instruction_line (line : List Char) : Bool :=
  is_instruction_tokens (tokenize line)

/-- Token lists of the instruction lines of a program, in source order. -/
def instruction_lines (lines : List (List Char)) : List (List Token) :=
  (lines.map tokenize).filter is_instruction_tokens

/-- A line that declares the label `name`: its first token is a `Period` and
the text of its second token is `name`. -/
def declares (name : List Char) (line : List Char) : Bool :=
  match tokenize line with
  | front :: second :: _ => front.type = TokenType.Period ∧ second.str = name
  | _ => false

/-- The source line `addi r<a> r<b> <n>` with the three numbers in decimal. -/
def addi_line (a b n : Nat) : List Char :=
  "addi r".toList ++ (Nat.repr a).toList ++ " r".toList ++ (Nat.repr b).toList
    ++ " ".toList ++ (Nat.repr n).toList

/-- A character that starts no token. -/
def is_junk (ch : Char) : Bool :=
  decide (ch ≠ '.') && decide (ch ≠ '[') && decide (ch ≠ ']') && !ch.isAlpha && !ch.isDigit

/-- An identifier text: a letter followed by letters and digits. -/
def is_identifier_text (text : List Char) : Bool :=
  match text with
  | [] => false
  | front :: rest => front.isAlpha && rest.all Char.isAlphanum

/-- A number text: one or more digits. -/
def is_number_text (text : List Char) : Bool :=
  match text with
  | [] => false
  | front :: rest => front.isDigit && rest.all Char.isDigit

/-- One of the three one-character texts ".", "[" and "]". -/
def is_punct_text (text : List Char) : Bool :=
  decide (text = ['.']) || decide (text = ['[']) || decide (text = [']'])

/-- The kind of a well-formed token text, `none` for any other text. -/
def text_kind (text : List Char) : Option TokenType :=
  if text = ['.'] then some TokenType.Period
  else if text = ['['] then some TokenType.BracketL
  else if text = [']'] then some TokenType.BracketR
  else if is_identifier_text text then some TokenType.Identifier
  else if is_number_text text then some TokenType.Number
  else none

/-- A text tagged with its kind. -/
def token_of_text (text : List Char) : Token :=
  { type := (text_kind text).getD TokenType.Invalid, str := text }

/-- Texts joined by a single space. -/
def join_spaced : List (List Char) → List Char
  | [] => []
  | [text] => text
  | text :: next :: rest => text ++ ' ' :: join_spaced (next :: rest)

/-- Texts written one after the other; the flag of a text says whether a space
stands before it. -/
def join_texts : List (Bool × List Char) → List Char
  | [] => []
  | (sep, text) :: rest => (if sep then [' '] else []) ++ text ++ join_texts rest

/-- Every text that follows `prev` without a space is ".", "[" or "]", or
follows one of these (or follows nothing, when `prev` is empty). -/
def separators_ok (prev : List Char) : List (Bool × List Char) → Bool
  | [] => true
  | (sep, text) :: rest =>
    (sep || decide (prev = []) || is_punct_text prev || is_punct_text text)
      && separators_ok text rest

/-- Two lines of the same length that differ only where both have a junk
character. -/
def same_up_to_junk : List Char → List Char → Bool
  | [], [] => true
  | a :: l, b :: m => (decide (a = b) || (is_junk a && is_junk b)) && same_up_to_junk l m
  | _, _ => false

/-- The type of a committed token: neither `Empty` nor `Invalid`. -/
def is_token_type (type : TokenType) : Bool :=
  decide (type ≠ TokenType.Empty) && decide (type ≠ TokenType.Invalid)

/-- Bound of the opcode of a layout, the first `assert` of its encoder. -/
def opcode_bound (s : OperandsType) : Nat :=
  match s with
  | OperandsType.Reg1Imm16 => 0xC
  | OperandsType.Reg2Imm8 => 0x10
  | OperandsType.Imm16 => 0x10
  | OperandsType.Reg3 => 0x100
  | OperandsType.Reg1Imm8 => 0x80
  | OperandsType.Reg2 => 0x400
  | OperandsType.Imm8 => 0x200
  | OperandsType.Reg1 => 0x1000
  | OperandsType.Empty => 0x10000
  | OperandsType.Invalid => 0

/-- Bound of the immediate of a layout (1 where there is none, so that the
unused argument 0 is in range). -/
def imm_bound (s : OperandsType) : Nat :=
  match s with
  | OperandsType.Reg1Imm16 => 0x10000
  | OperandsType.Imm16 => 0x10000
  | OperandsType.Reg2Imm8 => 0x100
  | OperandsType.Reg1Imm8 => 0x100
  | OperandsType.Imm8 => 0x100
  | _ => 1

/-- The encoder of a layout on operands that are already parsed: the last
step of each branch of `generate`.  Operands the layout lacks are ignored. -/
def encode (s : OperandsType) (opcode reg_1 reg_2 reg_3 imm : Nat) : Option Nat :=
  match s with
  | OperandsType.Reg1Imm16 => generate_reg1_imm16 opcode reg_1 imm
  | OperandsType.Reg2Imm8 => generate_reg2_imm8 opcode reg_1 reg_2 imm
  | OperandsType.Imm16 => generate_imm16 opcode imm
  | OperandsType.Reg3 => generate_reg3 opcode reg_1 reg_2 reg_3
  | OperandsType.Reg1Imm8 => generate_reg1_imm8 opcode reg_1 imm
  | OperandsType.Reg2 => generate_reg2 opcode reg_1 reg_2
  | OperandsType.Imm8 => generate_imm8 opcode imm
  | OperandsType.Reg1 => generate_reg1 opcode reg_1
  | OperandsType.Empty => generate_no_operands opcode
  | OperandsType.Invalid => none

/-- The opcode field of a word of the layout (bit positions of 4.3). -/
def opcode_field (s : OperandsType) (w : Nat) : Nat :=
  match s with
  | OperandsType.Reg1Imm16 => bits 23 20 w
  | OperandsType.Reg2Imm8 => bits 19 16 w
  | OperandsType.Imm16 => bits 19 16 w
  | OperandsType.Reg3 => bits 19 12 w
  | OperandsType.Reg1Imm8 => bits 18 12 w
  | OperandsType.Reg2 => bits 17 8 w
  | OperandsType.Imm8 => bits 16 8 w
  | OperandsType.Reg1 => bits 15 4 w
  | OperandsType.Empty => bits 15 0 w
  | OperandsType.Invalid => 0

/-- Number of tokens the operands of a layout take at least: one for each
register and one more for an immediate. -/
def operand_tokens (s : OperandsType) : Nat :=
  reg_count s + (if has_imm s then 1 else 0)

/-- The candidate is never `Invalid`, and every committed token carries the
kind of its own text, which is neither `Empty` nor `Invalid`. -/
def TokState.good (st : TokState) : Prop :=
  is_prefix_of_token st.current ≠ TokenType.Invalid ∧
  ∀ t ∈ st.tokens, t.type = is_prefix_of_token t.str ∧ is_token_type t.type = true

/-- The characters kept so far: the texts of the tokens, then the candidate. -/
def TokState.content (st : TokState) : List Char :=
  (st.tokens.map Token.str).flatten ++ st.current

/-! ## Closed forms of the encoders -/

theorem or_eq_add_of_low (k a b : Nat) (ha : a % 2 ^ k = 0) (hb : b < 2 ^ k) :
    a ||| b = a + b := by
  have h := Nat.mul_add_lt_is_or hb (a / 2 ^ k)
  have e : 2 ^ k * (a / 2 ^ k) = a := by
    have := Nat.div_add_mod a (2 ^ k)
    omega
  rw [e] at h
  exact h.symm

theorem generate_reg1_imm16_eq (opcode reg imm : Nat) (h0 : opcode < 12) (h1 : reg < 16)
    (h2 : imm < 65536) :
    generate_reg1_imm16 opcode reg imm = some (opcode * 1048576 + reg * 65536 + imm) := by
  unfold generate_reg1_imm16 Instruction general_reg_count
  rw [if_pos ⟨h0, h1, h2⟩]
  simp only [Nat.shiftLeft_eq]
  rw [or_eq_add_of_low 20 (opcode * 2 ^ 20) (reg * 2 ^ 16) (by omega) (by omega),
    or_eq_add_of_low 16 (opcode * 2 ^ 20 + reg * 2 ^ 16) imm (by omega) (by omega)]
  congr 1
  omega

theorem generate_reg2_imm8_eq (opcode reg_1 reg_2 imm : Nat) (h0 : opcode < 16)
    (h1 : reg_1 < 16) (h2 : reg_2 < 16) (h3 : imm < 256) :
    generate_reg2_imm8 opcode reg_1 reg_2 imm
      = some (0xC00000 + opcode * 65536 + reg_1 * 4096 + reg_2 * 256 + imm) := by
  unfold generate_reg2_imm8 Instruction general_reg_count
  rw [if_pos ⟨h0, h1, h2, h3⟩]
  simp only [Nat.shiftLeft_eq]
  rw [or_eq_add_of_low 20 0xC00000 (opcode * 2 ^ 16) (by omega) (by omega),
    or_eq_add_of_low 16 (0xC00000 + opcode * 2 ^ 16) (reg_1 * 2 ^ 12) (by omega) (by omega),
    or_eq_add_of_low 12 (0xC00000 + opcode * 2 ^ 16 + reg_1 * 2 ^ 12) (reg_2 * 2 ^ 8)
      (by omega) (by omega),
    or_eq_add_of_low 8 (0xC00000 + opcode * 2 ^ 16 + reg_1 * 2 ^ 12 + reg_2 * 2 ^ 8) imm
      (by omega) (by omega)]
  congr 1
  omega

theorem generate_imm16_eq (opcode imm : Nat) (h0 : opcode < 16) (h1 : imm < 65536) :
    generate_imm16 opcode imm = some (0xD00000 + opcode * 65536 + imm) := by
  unfold generate_imm16 Instruction
  rw [if_pos ⟨h0, h1⟩]
  simp only [Nat.shiftLeft_eq]
  rw [or_eq_add_of_low 20 0xD00000 (opcode * 2 ^ 16) (by omega) (by omega),
    or_eq_add_of_low 16 (0xD00000 + opcode * 2 ^ 16) imm (by omega) (by omega)]
  congr 1
  omega

theorem generate_reg3_eq (opcode reg_dest reg_src1 reg_src2 : Nat) (h0 : opcode < 256)
    (h1 : reg_dest < 16) (h2 : reg_src1 < 16) (h3 : reg_src2 < 16) :
    generate_reg3 opcode reg_dest reg_src1 reg_src2
      = some (0xE00000 + opcode * 4096 + reg_dest * 256 + reg_src1 * 16 + reg_src2) := by
  unfold generate_reg3 Instruction general_reg_count
  rw [if_pos ⟨h0, h1, h2, h3⟩]
  simp only [Nat.shiftLeft_eq]
  rw [or_eq_add_of_low 20 0xE00000 (opcode * 2 ^ 12) (by omega) (by omega),
    or_eq_add_of_low 12 (0xE00000 + opcode * 2 ^ 12) (reg_dest * 2 ^ 8) (by omega) (by omega),
    or_eq_add_of_low 8 (0xE00000 + opcode * 2 ^ 12 + reg_dest * 2 ^ 8) (reg_src1 * 2 ^ 4)
      (by omega) (by omega),
    or_eq_add_of_low 4 (0xE00000 + opcode * 2 ^ 12 + reg_dest * 2 ^ 8 + reg_src1 * 2 ^ 4)
      reg_src2 (by omega) (by omega)]
  congr 1
  omega

theorem generate_reg1_imm8_eq (opcode reg imm : Nat) (h0 : opcode < 128) (h1 : reg < 16)
    (h2 : imm < 256) :
    generate_reg1_imm8 opcode reg imm = some (0xF00000 + opcode * 4096 + reg * 256 + imm) := by
  unfold generate_reg1_imm8 Instruction general_reg_count
  rw [if_pos ⟨h0, h1, h2⟩]
  simp only [Nat.shiftLeft_eq]
  rw [or_eq_add_of_low 19 0xF00000 (opcode * 2 ^ 12) (by omega) (by omega),
    or_eq_add_of_low 12 (0xF00000 + opcode * 2 ^ 12) (reg * 2 ^ 8) (by omega) (by omega),
    or_eq_add_of_low 8 (0xF00000 + opcode * 2 ^ 12 + reg * 2 ^ 8) imm (by omega) (by omega)]
  congr 1
  omega

theorem generate_reg2_eq (opcode reg_1 reg_2 : Nat) (h0 : opcode < 1024) (h1 : reg_1 < 16)
    (h2 : reg_2 < 16) :
    generate_reg2 opcode reg_1 reg_2 = some (0xF80000 + opcode * 256 + reg_1 * 16 + reg_2) := by
  unfold generate_reg2 Instruction general_reg_count
  rw [if_pos ⟨h0, h1, h2⟩]
  simp only [Nat.shiftLeft_eq]
  rw [or_eq_add_of_low 18 0xF80000 (opcode * 2 ^ 8) (by omega) (by omega),
    or_eq_add_of_low 8 (0xF80000 + opcode * 2 ^ 8) (reg_1 * 2 ^ 4) (by omega) (by omega),
    or_eq_add_of_low 4 (0xF80000 + opcode * 2 ^ 8 + reg_1 * 2 ^ 4) reg_2 (by omega) (by omega)]
  congr 1
  omega

theorem generate_imm8_eq (opcode imm : Nat) (h0 : opcode < 512) (h1 : imm < 256) :
    generate_imm8 opcode imm = some (0xFC0000 + opcode * 256 + imm) := by
  unfold generate_imm8 Instruction
  rw [if_pos ⟨h0, h1⟩]
  simp only [Nat.shiftLeft_eq]
  rw [or_eq_add_of_low 17 0xFC0000 (opcode * 2 ^ 8) (by omega) (by omega),
    or_eq_add_of_low 8 (0xFC0000 + opcode * 2 ^ 8) imm (by omega) (by omega)]
  congr 1
  omega

theorem generate_reg1_eq (opcode reg : Nat) (h0 : opcode < 4096) (h1 : reg < 16) :
    generate_reg1 opcode reg = some (0xFE0000 + opcode * 16 + reg) := by
  unfold generate_reg1 Instruction general_reg_count
  rw [if_pos ⟨h0, h1⟩]
  simp only [Nat.shiftLeft_eq]
  rw [or_eq_add_of_low 16 0xFE0000 (opcode * 2 ^ 4) (by omega) (by omega),
    or_eq_add_of_low 4 (0xFE0000 + opcode * 2 ^ 4) reg (by omega) (by omega)]
  congr 1
  omega

theorem generate_no_operands_eq (opcode : Nat) (h0 : opcode < 65536) :
    generate_no_operands opcode = some (0xFF0000 + opcode) := by
  unfold generate_no_operands Instruction
  rw [if_pos h0]
  rw [or_eq_add_of_low 16 0xFF0000 opcode (by omega) (by omega)]
  congr 1
  omega

theorem bits_eq (hi lo w : Nat) : bits hi lo w = w / 2 ^ lo % 2 ^ (hi + 1 - lo) := by
  unfold bits
  rw [Nat.shiftRight_eq_div_pow]

/-! ## The encoder -/

/-- C1. Round trip of the encoder: for each of the nine generators and all
in-range arguments a word is returned, and the bit fields of that word at the
positions of the layout are exactly the opcode, the registers and the
immediate that were passed in. -/
theorem encoder_round_trip :
    (∀ opcode reg imm, opcode < 12 → reg < 16 → imm < 2 ^ 16 →
      ∃ w, generate_reg1_imm16 opcode reg imm = some w ∧
        bits 23 20 w = opcode ∧ bits 19 16 w = reg ∧ bits 15 0 w = imm) ∧
    (∀ opcode reg_1 reg_2 imm, opcode < 16 → reg_1 < 16 → reg_2 < 16 → imm < 2 ^ 8 →
      ∃ w, generate_reg2_imm8 opcode reg_1 reg_2 imm = some w ∧
        bits 19 16 w = opcode ∧ bits 15 12 w = reg_1 ∧ bits 11 8 w = reg_2 ∧
        bits 7 0 w = imm) ∧
    (∀ opcode imm, opcode < 16 → imm < 2 ^ 16 →
      ∃ w, generate_imm16 opcode imm = some w ∧
        bits 19 16 w = opcode ∧ bits 15 0 w = imm) ∧
    (∀ opcode reg_dest reg_src1 reg_src2, opcode < 256 → reg_dest < 16 → reg_src1 < 16 →
      reg_src2 < 16 →
      ∃ w, generate_reg3 opcode reg_dest reg_src1 reg_src2 = some w ∧
        bits 19 12 w = opcode ∧ bits 11 8 w = reg_dest ∧ bits 7 4 w = reg_src1 ∧
        bits 3 0 w = reg_src2) ∧
    (∀ opcode reg imm, opcode < 128 → reg < 16 → imm < 2 ^ 8 →
      ∃ w, generate_reg1_imm8 opcode reg imm = some w ∧
        bits 18 12 w = opcode ∧ bits 11 8 w = reg ∧ bits 7 0 w = imm) ∧
    (∀ opcode reg_1 reg_2, opcode < 1024 → reg_1 < 16 → reg_2 < 16 →
      ∃ w, generate_reg2 opcode reg_1 reg_2 = some w ∧
        bits 17 8 w = opcode ∧ bits 7 4 w = reg_1 ∧ bits 3 0 w = reg_2) ∧
    (∀ opcode imm, opcode < 512 → imm < 2 ^ 8 →
      ∃ w, generate_imm8 opcode imm = some w ∧
        bits 16 8 w = opcode ∧ bits 7 0 w = imm) ∧
    (∀ opcode reg, opcode < 4096 → reg < 16 →
      ∃ w, generate_reg1 opcode reg = some w ∧
        bits 15 4 w = opcode ∧ bits 3 0 w = reg) ∧
    (∀ opcode, opcode < 65536 →
      ∃ w, generate_no_operands opcode = some w ∧ bits 15 0 w = opcode) := by
  refine ⟨?_, ?_, ?_, ?_, ?_, ?_, ?_, ?_, ?_⟩
  · intro opcode reg imm h0 h1 h2
    refine ⟨_, generate_reg1_imm16_eq opcode reg imm h0 h1 (by omega), ?_, ?_, ?_⟩ <;>
      (rw [bits_eq]; norm_num; omega)
  · intro opcode reg_1 reg_2 imm h0 h1 h2 h3
    refine ⟨_, generate_reg2_imm8_eq opcode reg_1 reg_2 imm h0 h1 h2 (by omega),
      ?_, ?_, ?_, ?_⟩ <;> (rw [bits_eq]; norm_num; omega)
  · intro opcode imm h0 h1
    refine ⟨_, generate_imm16_eq opcode imm h0 (by omega), ?_, ?_⟩ <;>
      (rw [bits_eq]; norm_num; omega)
  · intro opcode reg_dest reg_src1 reg_src2 h0 h1 h2 h3
    refine ⟨_, generate_reg3_eq opcode reg_dest reg_src1 reg_src2 h0 h1 h2 h3,
      ?_, ?_, ?_, ?_⟩ <;> (rw [bits_eq]; norm_num; omega)
  · intro opcode reg imm h0 h1 h2
    refine ⟨_, generate_reg1_imm8_eq opcode reg imm h0 h1 (by omega), ?_, ?_, ?_⟩ <;>
      (rw [bits_eq]; norm_num; omega)
  · intro opcode reg_1 reg_2 h0 h1 h2
    refine ⟨_, generate_reg2_eq opcode reg_1 reg_2 h0 h1 h2, ?_, ?_, ?_⟩ <;>
      (rw [bits_eq]; norm_num; omega)
  · intro opcode imm h0 h1
    refine ⟨_, generate_imm8_eq opcode imm h0 (by omega), ?_, ?_⟩ <;>
      (rw [bits_eq]; norm_num; omega)
  · intro opcode reg h0 h1
    refine ⟨_, generate_reg1_eq opcode reg h0 h1, ?_, ?_⟩ <;>
      (rw [bits_eq]; norm_num; omega)
  · intro opcode h0
    refine ⟨_, generate_no_operands_eq opcode h0, ?_⟩
    rw [bits_eq]; norm_num; omega

/-- Instance of C1 at the largest arguments of the Reg3 layout. -/
theorem encoder_round_trip_witness :
    ∃ w, generate_reg3 255 15 15 15 = some w ∧
      bits 19 12 w = 255 ∧ bits 11 8 w = 15 ∧ bits 7 4 w = 15 ∧ bits 3 0 w = 15 :=
  encoder_round_trip.2.2.2.1 255 15 15 15 (by decide) (by decide) (by decide) (by decide)

theorem selector_exclusive (s1 s2 : OperandsType) (w : Nat) (h1 : selector s1 w = true)
    (h2 : selector s2 w = true) : s1 = s2 := by
  cases s1 <;> cases s2 <;>
    first
      | rfl
      | (exfalso
         simp only [selector, bits_eq, decide_eq_true_eq] at h1 h2
         first
             | exact Bool.noConfusion h1
             | exact Bool.noConfusion h2
             | (norm_num at h1 h2; omega))

theorem selector_iff (s : OperandsType) (w : Nat) (h : selector s w = true)
    (s2 : OperandsType) : selector s2 w = true ↔ s2 = s :=
  ⟨fun h2 => selector_exclusive s2 s w h2 h, fun e => e ▸ h⟩

theorem generated_by_selector (s : OperandsType) (w : Nat) (h : generated_by s w) :
    w < 2 ^ 24 ∧ selector s w = true := by
  cases s
  case Reg1Imm16 =>
    obtain ⟨opcode, reg, imm, h⟩ := h
    by_cases hc : opcode < 0xC ∧ reg < general_reg_count ∧ imm < 0x10000
    · rw [generate_reg1_imm16_eq opcode reg imm hc.1 hc.2.1 hc.2.2] at h
      have e := Option.some.inj h
      have := hc.1; have := hc.2.1; have := hc.2.2
      simp only [general_reg_count] at *
      subst e
      simp only [selector, bits_eq, decide_eq_true_eq]
      norm_num
      omega
    · simp [generate_reg1_imm16, hc] at h
  case Reg2Imm8 =>
    obtain ⟨opcode, reg_1, reg_2, imm, h⟩ := h
    by_cases hc : opcode < 0x10 ∧ reg_1 < general_reg_count ∧ reg_2 < general_reg_count
        ∧ imm < 0x100
    · rw [generate_reg2_imm8_eq opcode reg_1 reg_2 imm hc.1 hc.2.1 hc.2.2.1 hc.2.2.2] at h
      have e := Option.some.inj h
      have := hc.1; have := hc.2.1; have := hc.2.2.1; have := hc.2.2.2
      simp only [general_reg_count] at *
      subst e
      simp only [selector, bits_eq, decide_eq_true_eq]
      norm_num
      omega
    · simp [generate_reg2_imm8, hc] at h
  case Imm16 =>
    obtain ⟨opcode, imm, h⟩ := h
    by_cases hc : opcode < 0x10 ∧ imm < 0x10000
    · rw [generate_imm16_eq opcode imm hc.1 hc.2] at h
      have e := Option.some.inj h
      have := hc.1; have := hc.2
      subst e
      simp only [selector, bits_eq, decide_eq_true_eq]
      norm_num
      omega
    · simp [generate_imm16, hc] at h
  case Reg3 =>
    obtain ⟨opcode, reg_dest, reg_src1, reg_src2, h⟩ := h
    by_cases hc : opcode < 0x100 ∧ reg_dest < general_reg_count ∧ reg_src1 < general_reg_count
        ∧ reg_src2 < general_reg_count
    · rw [generate_reg3_eq opcode reg_dest reg_src1 reg_src2 hc.1 hc.2.1 hc.2.2.1 hc.2.2.2] at h
      have e := Option.some.inj h
      have := hc.1; have := hc.2.1; have := hc.2.2.1; have := hc.2.2.2
      simp only [general_reg_count] at *
      subst e
      simp only [selector, bits_eq, decide_eq_true_eq]
      norm_num
      omega
    · simp [generate_reg3, hc] at h
  case Reg1Imm8 =>
    obtain ⟨opcode, reg, imm, h⟩ := h
    by_cases hc : opcode < 0x80 ∧ reg < general_reg_count ∧ imm < 0x100
    · rw [generate_reg1_imm8_eq opcode reg imm hc.1 hc.2.1 hc.2.2] at h
      have e := Option.some.inj h
      have := hc.1; have := hc.2.1; have := hc.2.2
      simp only [general_reg_count] at *
      subst e
      simp only [selector, bits_eq, decide_eq_true_eq]
      norm_num
      omega
    · simp [generate_reg1_imm8, hc] at h
  case Reg2 =>
    obtain ⟨opcode, reg_1, reg_2, h⟩ := h
    by_cases hc : opcode < 0x400 ∧ reg_1 < general_reg_count ∧ reg_2 < general_reg_count
    · rw [generate_reg2_eq opcode reg_1 reg_2 hc.1 hc.2.1 hc.2.2] at h
      have e := Option.some.inj h
      have := hc.1; have := hc.2.1; have := hc.2.2
      simp only [general_reg_count] at *
      subst e
      simp only [selector, bits_eq, decide_eq_true_eq]
      norm_num
      omega
    · simp [generate_reg2, hc] at h
  case Imm8 =>
    obtain ⟨opcode, imm, h⟩ := h
    by_cases hc : opcode < 0x200 ∧ imm < 0x100
    · rw [generate_imm8_eq opcode imm hc.1 hc.2] at h
      have e := Option.some.inj h
      have := hc.1; have := hc.2
      subst e
      simp only [selector, bits_eq, decide_eq_true_eq]
      norm_num
      omega
    · simp [generate_imm8, hc] at h
  case Reg1 =>
    obtain ⟨opcode, reg, h⟩ := h
    by_cases hc : opcode < 0x1000 ∧ reg < general_reg_count
    · rw [generate_reg1_eq opcode reg hc.1 hc.2] at h
      have e := Option.some.inj h
      have := hc.1; have := hc.2
      simp only [general_reg_count] at *
      subst e
      simp only [selector, bits_eq, decide_eq_true_eq]
      norm_num
      omega
    · simp [generate_reg1, hc] at h
  case Empty =>
    obtain ⟨opcode, h⟩ := h
    by_cases hc : opcode < 0x10000
    · rw [generate_no_operands_eq opcode hc] at h
      have e := Option.some.inj h
      subst e
      simp only [selector, bits_eq, decide_eq_true_eq]
      norm_num
      omega
    · simp [generate_no_operands, hc] at h
  case Invalid => exact h.elim

theorem generated_by_prefix (s : OperandsType) (w : Nat) (h : generated_by s w) :
    w < 2 ^ 24 ∧ ∀ s2, selector s2 w = true ↔ s2 = s :=
  ⟨(generated_by_selector s w h).1, selector_iff s w (generated_by_selector s w h).2⟩

/-- C2. Prefix scheme: for all in-range arguments each generator returns a word
below 2^24 whose leading bits lie in the selector range of its own layout
(Reg1Imm16 top 4 bits below 0xC, Reg2Imm8 0xC, Imm16 0xD, Reg3 0xE, Reg1Imm8 top
byte 0xF0..0xF7, Reg2 0xF8..0xFB, Imm8 0xFC..0xFD, Reg1 0xFE, Empty 0xFF) and of
no other layout; so words built by generators of different layouts differ. -/
theorem prefix_scheme :
    (∀ opcode reg imm, opcode < 12 → reg < 16 → imm < 2 ^ 16 →
      ∃ w, generate_reg1_imm16 opcode reg imm = some w ∧ w < 2 ^ 24 ∧
        ∀ s, selector s w = true ↔ s = OperandsType.Reg1Imm16) ∧
    (∀ opcode reg_1 reg_2 imm, opcode < 16 → reg_1 < 16 → reg_2 < 16 → imm < 2 ^ 8 →
      ∃ w, generate_reg2_imm8 opcode reg_1 reg_2 imm = some w ∧ w < 2 ^ 24 ∧
        ∀ s, selector s w = true ↔ s = OperandsType.Reg2Imm8) ∧
    (∀ opcode imm, opcode < 16 → imm < 2 ^ 16 →
      ∃ w, generate_imm16 opcode imm = some w ∧ w < 2 ^ 24 ∧
        ∀ s, selector s w = true ↔ s = OperandsType.Imm16) ∧
    (∀ opcode reg_dest reg_src1 reg_src2, opcode < 256 → reg_dest < 16 → reg_src1 < 16 →
      reg_src2 < 16 →
      ∃ w, generate_reg3 opcode reg_dest reg_src1 reg_src2 = some w ∧ w < 2 ^ 24 ∧
        ∀ s, selector s w = true ↔ s = OperandsType.Reg3) ∧
    (∀ opcode reg imm, opcode < 128 → reg < 16 → imm < 2 ^ 8 →
      ∃ w, generate_reg1_imm8 opcode reg imm = some w ∧ w < 2 ^ 24 ∧
        ∀ s, selector s w = true ↔ s = OperandsType.Reg1Imm8) ∧
    (∀ opcode reg_1 reg_2, opcode < 1024 → reg_1 < 16 → reg_2 < 16 →
      ∃ w, generate_reg2 opcode reg_1 reg_2 = some w ∧ w < 2 ^ 24 ∧
        ∀ s, selector s w = true ↔ s = OperandsType.Reg2) ∧
    (∀ opcode imm, opcode < 512 → imm < 2 ^ 8 →
      ∃ w, generate_imm8 opcode imm = some w ∧ w < 2 ^ 24 ∧
        ∀ s, selector s w = true ↔ s = OperandsType.Imm8) ∧
    (∀ opcode reg, opcode < 4096 → reg < 16 →
      ∃ w, generate_reg1 opcode reg = some w ∧ w < 2 ^ 24 ∧
        ∀ s, selector s w = true ↔ s = OperandsType.Reg1) ∧
    (∀ opcode, opcode < 65536 →
      ∃ w, generate_no_operands opcode = some w ∧ w < 2 ^ 24 ∧
        ∀ s, selector s w = true ↔ s = OperandsType.Empty) ∧
    (∀ s1 s2 w1 w2, generated_by s1 w1 → generated_by s2 w2 → s1 ≠ s2 → w1 ≠ w2) := by
  refine ⟨?_, ?_, ?_, ?_, ?_, ?_, ?_, ?_, ?_, ?_⟩
  · intro opcode reg imm h0 h1 h2
    have e := generate_reg1_imm16_eq opcode reg imm h0 h1 (by omega)
    exact ⟨_, e, generated_by_prefix OperandsType.Reg1Imm16 _ ⟨opcode, reg, imm, e⟩⟩
  · intro opcode reg_1 reg_2 imm h0 h1 h2 h3
    have e := generate_reg2_imm8_eq opcode reg_1 reg_2 imm h0 h1 h2 (by omega)
    exact ⟨_, e, generated_by_prefix OperandsType.Reg2Imm8 _ ⟨opcode, reg_1, reg_2, imm, e⟩⟩
  · intro opcode imm h0 h1
    have e := generate_imm16_eq opcode imm h0 (by omega)
    exact ⟨_, e, generated_by_prefix OperandsType.Imm16 _ ⟨opcode, imm, e⟩⟩
  · intro opcode reg_dest reg_src1 reg_src2 h0 h1 h2 h3
    have e := generate_reg3_eq opcode reg_dest reg_src1 reg_src2 h0 h1 h2 h3
    exact ⟨_, e, generated_by_prefix OperandsType.Reg3 _
      ⟨opcode, reg_dest, reg_src1, reg_src2, e⟩⟩
  · intro opcode reg imm h0 h1 h2
    have e := generate_reg1_imm8_eq opcode reg imm h0 h1 (by omega)
    exact ⟨_, e, generated_by_prefix OperandsType.Reg1Imm8 _ ⟨opcode, reg, imm, e⟩⟩
  · intro opcode reg_1 reg_2 h0 h1 h2
    have e := generate_reg2_eq opcode reg_1 reg_2 h0 h1 h2
    exact ⟨_, e, generated_by_prefix OperandsType.Reg2 _ ⟨opcode, reg_1, reg_2, e⟩⟩
  · intro opcode imm h0 h1
    have e := generate_imm8_eq opcode imm h0 (by omega)
    exact ⟨_, e, generated_by_prefix OperandsType.Imm8 _ ⟨opcode, imm, e⟩⟩
  · intro opcode reg h0 h1
    have e := generate_reg1_eq opcode reg h0 h1
    exact ⟨_, e, generated_by_prefix OperandsType.Reg1 _ ⟨opcode, reg, e⟩⟩
  · intro opcode h0
    have e := generate_no_operands_eq opcode h0
    exact ⟨_, e, generated_by_prefix OperandsType.Empty _ ⟨opcode, e⟩⟩
  · intro s1 s2 w1 w2 g1 g2 hne heq
    subst heq
    exact hne (selector_exclusive s1 s2 w1 (generated_by_selector s1 w1 g1).2
      (generated_by_selector s2 w1 g2).2)

/-- Instance of C2 at the largest arguments of the Reg1Imm8 layout. -/
theorem prefix_scheme_witness :
    ∃ w, generate_reg1_imm8 127 15 255 = some w ∧ w < 2 ^ 24 ∧
      ∀ s, selector s w = true ↔ s = OperandsType.Reg1Imm8 :=
  prefix_scheme.2.2.2.2.1 127 15 255 (by decide) (by decide) (by decide)

/-! ## The tokenizer on well-formed pieces -/

theorem isAlpha_not_digit (c : Char) (h : c.isAlpha = true) : c.isDigit = false := by
  simp only [Char.isAlpha, Char.isUpper, Char.isLower, Bool.or_eq_true, Bool.and_eq_true,
    decide_eq_true_eq, UInt32.le_def, BitVec.le_def] at h
  simp only [Char.isDigit, Bool.and_eq_false_imp, decide_eq_true_eq, decide_eq_false_iff_not,
    UInt32.le_def, BitVec.le_def]
  have e48 : (UInt32.toBitVec 48).toNat = 48 := rfl
  have e57 : (UInt32.toBitVec 57).toNat = 57 := rfl
  have e65 : (UInt32.toBitVec 65).toNat = 65 := rfl
  have e90 : (UInt32.toBitVec 90).toNat = 90 := rfl
  have e97 : (UInt32.toBitVec 97).toNat = 97 := rfl
  have e122 : (UInt32.toBitVec 122).toNat = 122 := rfl
  rw [e65, e90, e97, e122] at h
  rw [e48, e57]
  omega

theorem isDigit_not_alpha (c : Char) (h : c.isDigit = true) : c.isAlpha = false := by
  cases hc : c.isAlpha
  · rfl
  · rw [isAlpha_not_digit c hc] at h
    exact Bool.noConfusion h

theorem isAlpha_not_special (c : Char) (h : c.isAlpha = true) :
    c ≠ '.' ∧ c ≠ '[' ∧ c ≠ ']' := by
  refine ⟨?_, ?_, ?_⟩ <;> (rintro rfl; exact absurd h (by decide))

theorem isDigit_not_special (c : Char) (h : c.isDigit = true) :
    c ≠ '.' ∧ c ≠ '[' ∧ c ≠ ']' := by
  refine ⟨?_, ?_, ?_⟩ <;> (rintro rfl; exact absurd h (by decide))

theorem isDigit_isAlphanum (c : Char) (h : c.isDigit = true) : c.isAlphanum = true := by
  simp [Char.isAlphanum, h]

theorem isAlpha_isAlphanum (c : Char) (h : c.isAlpha = true) : c.isAlphanum = true := by
  simp [Char.isAlphanum, h]

/-- An identifier text: a letter followed by letters and digits. -/
theorem is_prefix_identifier (front : Char) (rest : List Char) (h : front.isAlpha = true)
    (hr : rest.all Char.isAlphanum = true) :
    is_prefix_of_token (front :: rest) = TokenType.Identifier := by
  obtain ⟨h1, h2, h3⟩ := isAlpha_not_special front h
  simp [is_prefix_of_token, h1, h2, h3, h, isAlpha_isAlphanum front h]
  simpa using hr

/-- A number text: one or more digits. -/
theorem is_prefix_number (front : Char) (rest : List Char) (h : front.isDigit = true)
    (hr : rest.all Char.isDigit = true) :
    is_prefix_of_token (front :: rest) = TokenType.Number := by
  obtain ⟨h1, h2, h3⟩ := isDigit_not_special front h
  simp [is_prefix_of_token, h1, h2, h3, h, isDigit_not_alpha front h]
  simpa using hr

theorem is_junk_iff (ch : Char) : is_junk ch = true ↔
    ch ≠ '.' ∧ ch ≠ '[' ∧ ch ≠ ']' ∧ ch.isAlpha = false ∧ ch.isDigit = false := by
  simp [is_junk, and_assoc]

theorem is_junk_not_alphanum (ch : Char) (h : is_junk ch = true) : ch.isAlphanum = false := by
  rw [is_junk_iff] at h
  simp [Char.isAlphanum, h.2.2.2.1, h.2.2.2.2]

/-- A candidate that ends in a junk character is never a token prefix. -/
theorem is_prefix_snoc_junk (cur : List Char) (ch : Char) (h : is_junk ch = true) :
    is_prefix_of_token (cur ++ [ch]) = TokenType.Invalid := by
  have hj := (is_junk_iff ch).1 h
  have hn := is_junk_not_alphanum ch h
  cases cur with
  | nil => simp [is_prefix_of_token, hj.1, hj.2.1, hj.2.2.1, hj.2.2.2.1, hj.2.2.2.2]
  | cons front rest =>
    simp only [is_prefix_of_token, List.cons_append, List.length_cons, List.length_append,
      List.length_singleton, List.all_cons, List.all_append, List.all_nil, Bool.and_true,
      hn, hj.2.2.2.2, Bool.and_false, Bool.false_eq_true, if_false]
    split_ifs <;> first | rfl | omega

theorem tokenize_step_junk (T : List Token) (cur : List Char) (ch : Char)
    (h : is_junk ch = true) (h1 : is_prefix_of_token cur ≠ TokenType.Empty)
    (h2 : is_prefix_of_token cur ≠ TokenType.Invalid) :
    tokenize_step { tokens := T, current := cur } ch
      = { tokens := T ++ [{ type := is_prefix_of_token cur, str := cur }], current := [] } := by
  have e1 := is_prefix_snoc_junk cur ch h
  have e2 := is_prefix_snoc_junk [] ch h
  simp only [List.nil_append] at e2
  simp [tokenize_step, e1, e2, h1, h2]

theorem tokenize_step_junk_empty (T : List Token) (ch : Char) (h : is_junk ch = true) :
    tokenize_step { tokens := T, current := [] } ch = { tokens := T, current := [] } := by
  have e2 := is_prefix_snoc_junk [] ch h
  simp only [List.nil_append] at e2
  have e0 : is_prefix_of_token [] = TokenType.Empty := rfl
  simp [tokenize_step, e2, e0]

theorem tokenize_step_start (T : List Token) (ch : Char)
    (h : is_prefix_of_token [ch] ≠ TokenType.Invalid) :
    tokenize_step { tokens := T, current := [] } ch = { tokens := T, current := [ch] } := by
  simp [tokenize_step, h]

theorem tokenize_loop_append (st : TokState) (a b : List Char) :
    tokenize_loop st (a ++ b) = tokenize_loop (tokenize_loop st a) b := by
  simp [tokenize_loop, List.foldl_append]

theorem tokenize_loop_cons (st : TokState) (a : Char) (b : List Char) :
    tokenize_loop st (a :: b) = tokenize_loop (tokenize_step st a) b := rfl

theorem tokenize_loop_nil (st : TokState) : tokenize_loop st [] = st := rfl

/-- An identifier candidate grows over letters and digits. -/
theorem tokenize_loop_alnum (T : List Token) (front : Char) (hf : front.isAlpha = true)
    (cs : List Char) : ∀ (rest : List Char), rest.all Char.isAlphanum = true →
    cs.all Char.isAlphanum = true →
    tokenize_loop { tokens := T, current := front :: rest } cs
      = { tokens := T, current := front :: rest ++ cs } := by
  induction cs with
  | nil => intro rest _ _; simp [tokenize_loop]
  | cons c cs ih =>
    intro rest hr hcs
    simp only [List.all_cons, Bool.and_eq_true] at hcs
    have hr2 : (rest ++ [c]).all Char.isAlphanum = true := by
      simp only [List.all_append, List.all_cons, List.all_nil, Bool.and_true, Bool.and_eq_true]
      exact ⟨hr, hcs.1⟩
    have e := is_prefix_identifier front (rest ++ [c]) hf hr2
    rw [tokenize_loop_cons]
    have hs : tokenize_step { tokens := T, current := front :: rest } c
        = { tokens := T, current := front :: (rest ++ [c]) } := by
      simp [tokenize_step, e]
    rw [hs, ih (rest ++ [c]) hr2 hcs.2]
    simp

/-- A number candidate, or no candidate yet, grows over digits. -/
theorem tokenize_loop_digits (T : List Token) (cs : List Char) : ∀ (cur : List Char),
    cur.all Char.isDigit = true → cs.all Char.isDigit = true →
    tokenize_loop { tokens := T, current := cur } cs = { tokens := T, current := cur ++ cs } := by
  induction cs with
  | nil => intro cur _ _; simp [tokenize_loop]
  | cons c cs ih =>
    intro cur hr hcs
    simp only [List.all_cons, Bool.and_eq_true] at hcs
    have hr2 : (cur ++ [c]).all Char.isDigit = true := by
      simp only [List.all_append, List.all_cons, List.all_nil, Bool.and_true, Bool.and_eq_true]
      exact ⟨hr, hcs.1⟩
    have e : is_prefix_of_token (cur ++ [c]) = TokenType.Number := by
      cases cur with
      | nil => exact is_prefix_number c [] hcs.1 rfl
      | cons f r =>
        simp only [List.all_cons, Bool.and_eq_true] at hr
        refine is_prefix_number f (r ++ [c]) hr.1 ?_
        simp only [List.all_append, List.all_cons, List.all_nil, Bool.and_true,
          Bool.and_eq_true]
        exact ⟨hr.2, hcs.1⟩
    rw [tokenize_loop_cons]
    have hs : tokenize_step { tokens := T, current := cur } c
        = { tokens := T, current := cur ++ [c] } := by
      simp [tokenize_step, e]
    rw [hs, ih (cur ++ [c]) hr2 hcs.2]
    simp

/-! ## Decimal texts and `stoul` -/

theorem digitChar_isDigit (k : Nat) (h : k < 10) :
    (Nat.digitChar k).isDigit = true ∧ digit_value (Nat.digitChar k) = k := by
  interval_cases k <;> exact ⟨rfl, rfl⟩

theorem toDigitsCore_spec (fuel : Nat) : ∀ (n : Nat) (ds : List Char), n < fuel →
    ds.all Char.isDigit = true →
    (Nat.toDigitsCore 10 fuel n ds).all Char.isDigit = true ∧
    (Nat.toDigitsCore 10 fuel n ds) ≠ [] ∧
    (Nat.toDigitsCore 10 fuel n ds).foldl (fun acc c => 10 * acc + digit_value c) 0
      = ds.foldl (fun acc c => 10 * acc + digit_value c) n := by
  induction fuel with
  | zero => intro n ds h; omega
  | succ fuel ih =>
    intro n ds h hds
    have hd := digitChar_isDigit (n % 10) (Nat.mod_lt n (by norm_num))
    rw [Nat.toDigitsCore]
    by_cases hz : n / 10 = 0
    · rw [if_pos hz]
      refine ⟨?_, by simp, ?_⟩
      · simp [hd.1]; simpa using hds
      · simp only [List.foldl_cons, hd.2, Nat.mul_zero, Nat.zero_add]
        have : n % 10 = n := by omega
        rw [this]
    · rw [if_neg hz]
      have hlt : n / 10 < fuel := by omega
      have hds2 : (Nat.digitChar (n % 10) :: ds).all Char.isDigit = true := by
        simp [hd.1]; simpa using hds
      obtain ⟨h1, h2, h3⟩ := ih (n / 10) (Nat.digitChar (n % 10) :: ds) hlt hds2
      refine ⟨h1, h2, ?_⟩
      rw [h3]
      simp only [List.foldl_cons, hd.2]
      have : 10 * (n / 10) + n % 10 = n := Nat.div_add_mod n 10
      rw [this]

theorem takeWhile_all (p : Char → Bool) (l : List Char) (h : l.all p = true) :
    l.takeWhile p = l := by
  induction l with
  | nil => rfl
  | cons a l ih =>
    simp only [List.all_cons, Bool.and_eq_true] at h
    simp [List.takeWhile, h.1, ih h.2]

theorem repr_digits (n : Nat) : (Nat.repr n).toList.all Char.isDigit = true ∧
    (Nat.repr n).toList ≠ [] := by
  have h := toDigitsCore_spec (n + 1) n [] (by omega) rfl
  exact ⟨h.1, h.2.1⟩

theorem stoul_repr (n : Nat) (h : n < 2 ^ 64) : stoul (Nat.repr n).toList = some n := by
  have hs := toDigitsCore_spec (n + 1) n [] (by omega) rfl
  have e : (Nat.repr n).toList = Nat.toDigitsCore 10 (n + 1) n [] := rfl
  rw [e]
  unfold stoul
  simp only [takeWhile_all _ _ hs.1, hs.2.1, if_false, hs.2.2, List.foldl_nil, h, if_true]

/-! ## The line `addi r<a> r<b> <n>` -/

theorem parse_reg_identifier (c : Char) (ds : List Char) (rest : List Token) (v : Nat)
    (h : stoul ds = some v) :
    parse_reg ({ type := TokenType.Identifier, str := c :: ds } :: rest)
      = some (v % 2 ^ 32, rest) := by
  simp [parse_reg, h]

theorem parse_imm_number (ds : List Char) (rest : List Token) (labels : Labels) (v : Nat)
    (h : stoul ds = some v) :
    parse_imm ({ type := TokenType.Number, str := ds } :: rest) labels
      = some (v % 2 ^ 32, rest) := by
  simp [parse_imm, h]

theorem tokenize_finish_number (T : List Token) (ds : List Char)
    (h : ds.all Char.isDigit = true) (hne : ds ≠ []) :
    tokenize_finish { tokens := T, current := ds }
      = T ++ [{ type := TokenType.Number, str := ds }] := by
  cases ds with
  | nil => exact absurd rfl hne
  | cons d ds =>
    simp only [List.all_cons, Bool.and_eq_true] at h
    simp [tokenize_finish, is_prefix_number d ds h.1 h.2]

theorem tokenize_addi_line (a b n : Nat) :
    tokenize (addi_line a b n)
      = [{ type := TokenType.Identifier, str := "addi".toList },
         { type := TokenType.Identifier, str := 'r' :: (Nat.repr a).toList },
         { type := TokenType.Identifier, str := 'r' :: (Nat.repr b).toList },
         { type := TokenType.Number, str := (Nat.repr n).toList }] := by
  have ha := repr_digits a
  have hb := repr_digits b
  have hn := repr_digits n
  have alnum : ∀ l : List Char, l.all Char.isDigit = true → l.all Char.isAlphanum = true := by
    intro l hl
    rw [List.all_eq_true] at hl ⊢
    exact fun x hx => isDigit_isAlphanum x (hl x hx)
  have hr : ∀ ds : List Char, ds.all Char.isDigit = true →
      is_prefix_of_token ('r' :: ds) = TokenType.Identifier :=
    fun ds hds => is_prefix_identifier 'r' ds (by decide) (alnum ds hds)
  have e0 : tokenize_loop { tokens := [], current := [] } "addi r".toList
      = { tokens := [{ type := TokenType.Identifier, str := "addi".toList }],
          current := ['r'] } := by decide
  have sp : is_junk ' ' = true := by decide
  have rs : is_prefix_of_token ['r'] ≠ TokenType.Invalid := by decide
  have s2 : ∀ (T : List Token) (ds : List Char), ds.all Char.isDigit = true →
      tokenize_loop { tokens := T, current := ['r'] } ds
        = { tokens := T, current := 'r' :: ds } := by
    intro T ds hds
    rw [tokenize_loop_alnum T 'r' (by decide) ds [] rfl (alnum ds hds)]
    rfl
  have s3 : ∀ (T : List Token) (ds : List Char), ds.all Char.isDigit = true →
      tokenize_step { tokens := T, current := 'r' :: ds } ' '
        = { tokens := T ++ [{ type := TokenType.Identifier, str := 'r' :: ds }],
            current := [] } := by
    intro T ds hds
    rw [tokenize_step_junk T _ _ sp (by rw [hr ds hds]; decide) (by rw [hr ds hds]; decide),
      hr ds hds]
  unfold tokenize addi_line
  have e1 : " r".toList = [' ', 'r'] := rfl
  have e2 : " ".toList = [' '] := rfl
  rw [tokenize_loop_append, tokenize_loop_append, tokenize_loop_append, tokenize_loop_append,
    tokenize_loop_append, e0, s2 _ _ ha.1, e1, e2]
  simp only [tokenize_loop_cons, tokenize_loop_nil]
  rw [s3 _ _ ha.1, tokenize_step_start _ _ rs, s2 _ _ hb.1, s3 _ _ hb.1,
    tokenize_loop_digits _ _ [] rfl hn.1, List.nil_append,
    tokenize_finish_number _ _ hn.1 hn.2]
  rfl

theorem assemble_single (line : List Char) (front : Token) (rest : List Token) (w : Nat)
    (hl : line.length ≤ 256) (ht : tokenize line = front :: rest)
    (hp : front.type ≠ TokenType.Period)
    (hw : assemble_impl (front :: rest) [] = some w) :
    assemble [line] = some [w] := by
  have hl2 : ¬ line.length > line_length_max := by unfold line_length_max; omega
  simp [assemble, scan, scan_line, hl2, ht, hp, emit, hw]

theorem repr_length_le (n : Nat) (h : n < 1000) : (Nat.repr n).toList.length ≤ 3 :=
  Nat.toDigitsCore_length 10 (by norm_num) (n + 1) n 3 (by omega) (by norm_num)

/-- C3. The single line "addi r1 r2 10" assembles to exactly the one word
0xC0120A, and for all a < 16, b < 16, n < 256 the line "addi r<a> r<b> <n>" (a, b,
n in decimal) assembles to the one word 0xC00000 + 4096*a + 256*b + n. -/
theorem addi_line_word :
    assemble ["addi r1 r2 10".toList] = some [0xC0120A] ∧
    ∀ a b n, a < 16 → b < 16 → n < 256 →
      assemble [addi_line a b n] = some [0xC00000 + 4096 * a + 256 * b + n] := by
  refine ⟨by decide, ?_⟩
  intro a b n ha hb hn
  have la := repr_length_le a (by omega)
  have lb := repr_length_le b (by omega)
  have ln := repr_length_le n (by omega)
  refine assemble_single (addi_line a b n) _ _ _ ?_ (tokenize_addi_line a b n)
    (by decide) ?_
  · simp only [addi_line, List.length_append]
    have e1 : "addi r".toList.length = 6 := rfl
    have e2 : " r".toList.length = 2 := rfl
    have e3 : " ".toList.length = 1 := rfl
    omega
  · have t : op_table "addi".toList = (OperandsType.Reg2Imm8, 0) := by decide
    simp only [assemble_impl, t, generate, ne_eq, not_true_eq_false, if_false]
    rw [parse_reg_identifier 'r' _ _ a (stoul_repr a (by omega)),
      show a % 2 ^ 32 = a from Nat.mod_eq_of_lt (by omega)]
    simp only [Option.bind_eq_bind, Option.some_bind]
    rw [parse_reg_identifier 'r' _ _ b (stoul_repr b (by omega)),
      show b % 2 ^ 32 = b from Nat.mod_eq_of_lt (by omega)]
    simp only [Option.some_bind]
    rw [parse_imm_number _ _ _ n (stoul_repr n (by omega)),
      show n % 2 ^ 32 = n from Nat.mod_eq_of_lt (by omega)]
    simp only [Option.some_bind]
    rw [generate_reg2_imm8_eq 0 a b n (by norm_num) ha hb hn]
    congr 1
    omega

/-- Instance of C3 at the largest operands: the line is "addi r15 r15 255". -/
theorem addi_line_word_witness :
    addi_line 15 15 255 = "addi r15 r15 255".toList ∧
    assemble [addi_line 15 15 255] = some [0xC00000 + 4096 * 15 + 256 * 15 + 255] :=
  ⟨by decide, addi_line_word.2 15 15 255 (by decide) (by decide) (by decide)⟩

/-! ## The first pass and the number of words -/

theorem scan_line_instruction_tokens (st st2 : ScanState) (line : List Char)
    (h : scan_line st line = some st2) :
    st2.instruction_tokens
      = st.instruction_tokens ++ (if is_instruction_tokens (tokenize line) then [tokenize line]
          else []) := by
  unfold scan_line at h
  split_ifs at h with hl
  cases ht : tokenize line with
  | nil =>
    rw [ht] at h
    simp only [Option.some.injEq] at h
    subst h
    simp [is_instruction_tokens]
  | cons front rest =>
    rw [ht] at h
    simp only at h
    split_ifs at h with hp
    · cases rest with
      | nil => simp at h
      | cons second rest2 =>
        simp only [Option.some.injEq] at h
        subst h
        simp [is_instruction_tokens, hp]
    · simp only [Option.some.injEq] at h
      subst h
      simp [is_instruction_tokens, hp]

theorem scan_instruction_tokens (lines : List (List Char)) : ∀ (st st2 : ScanState),
    scan st lines = some st2 →
    st2.instruction_tokens = st.instruction_tokens ++ instruction_lines lines := by
  induction lines with
  | nil =>
    intro st st2 h
    simp only [scan, Option.some.injEq] at h
    subst h
    simp [instruction_lines]
  | cons line rest ih =>
    intro st st2 h
    simp only [scan] at h
    cases h1 : scan_line st line with
    | none => rw [h1] at h; simp at h
    | some st1 =>
      rw [h1] at h
      simp only at h
      rw [ih st1 st2 h, scan_line_instruction_tokens st st1 line h1]
      by_cases hi : is_instruction_tokens (tokenize line) = true
      · simp [instruction_lines, hi]
      · simp [instruction_lines, hi]

theorem emit_length (labels : Labels) (its : List (List Token)) : ∀ (ws : List Nat),
    emit labels its = some ws → ws.length = its.length := by
  induction its with
  | nil =>
    intro ws h
    simp only [emit, Option.some.injEq] at h
    subst h
    rfl
  | cons t rest ih =>
    intro ws h
    simp only [emit] at h
    cases h1 : assemble_impl t labels with
    | none => rw [h1] at h; simp at h
    | some w =>
      rw [h1] at h
      cases h2 : emit labels rest with
      | none => rw [h2] at h; simp at h
      | some ws2 =>
        rw [h2] at h
        simp only [Option.some.injEq] at h
        subst h
        simp [ih ws2 h2]

theorem assemble_some (lines : List (List Char)) (ws : List Nat)
    (h : assemble lines = some ws) :
    ∃ st, scan { instruction_tokens := [], labels := [] } lines = some st ∧
      st.instruction_tokens = instruction_lines lines ∧
      emit st.labels (instruction_lines lines) = some ws := by
  unfold assemble at h
  cases h1 : scan { instruction_tokens := [], labels := [] } lines with
  | none => rw [h1] at h; simp at h
  | some st =>
    rw [h1] at h
    simp only at h
    have e := scan_instruction_tokens lines _ st h1
    simp only [List.nil_append] at e
    exact ⟨st, rfl, e, e ▸ h⟩

theorem instruction_lines_length (lines : List (List Char)) :
    (instruction_lines lines).length = (lines.filter is_instruction_line).length := by
  induction lines with
  | nil => rfl
  | cons line rest ih =>
    by_cases hi : is_instruction_tokens (tokenize line) = true
    · simp [instruction_lines, is_instruction_line, hi, List.filter_cons] at ih ⊢
      exact ih
    · simp [instruction_lines, is_instruction_line, hi, List.filter_cons] at ih ⊢
      exact ih

/-- C4. Whenever `assemble` succeeds, the number of words it returns is the
number of lines that are neither blank (no token) nor label declarations (first
token a Period): such lines give no word and every other line gives one. -/
theorem word_count (lines : List (List Char)) (ws : List Nat)
    (h : assemble lines = some ws) :
    ws.length = (lines.filter is_instruction_line).length := by
  obtain ⟨st, _, _, he⟩ := assemble_some lines ws h
  rw [emit_length _ _ ws he, instruction_lines_length]

/-- Instance of C4: a blank line, a label line and two instruction lines give
two words. -/
theorem word_count_witness :
    assemble ["  ".toList, "jmpi .end".toList, ".end".toList, "exit".toList]
        = some [0xD00001, 0xFFFFFF] ∧
    [0xD00001, 0xFFFFFF].length
      = (["  ".toList, "jmpi .end".toList, ".end".toList, "exit".toList].filter
          is_instruction_line).length :=
  ⟨by decide, word_count _ _ (by decide)⟩

/-! ## The immediate operand of `generate` -/

theorem parse_reg_cons (t : Token) (rest : List Token) (v : Nat) (r : List Token)
    (h : parse_reg (t :: rest) = some (v, r)) : r = rest := by
  simp only [parse_reg] at h
  split_ifs at h
  cases hs : stoul (t.str.drop 1) with
  | none => rw [hs] at h; simp at h
  | some x =>
    rw [hs] at h
    simp only [Option.some.injEq, Prod.mk.injEq] at h
    exact h.2.symm

theorem generate_reg1_imm16_imm (opcode reg imm w : Nat)
    (h : generate_reg1_imm16 opcode reg imm = some w) : bits 15 0 w = imm := by
  by_cases hc : opcode < 0xC ∧ reg < general_reg_count ∧ imm < 0x10000
  · rw [generate_reg1_imm16_eq opcode reg imm hc.1 hc.2.1 hc.2.2] at h
    have e := Option.some.inj h
    have := hc.2.2
    subst e
    rw [bits_eq]; norm_num; omega
  · simp [generate_reg1_imm16, hc] at h

theorem generate_reg2_imm8_imm (opcode reg_1 reg_2 imm w : Nat)
    (h : generate_reg2_imm8 opcode reg_1 reg_2 imm = some w) : bits 7 0 w = imm := by
  by_cases hc : opcode < 0x10 ∧ reg_1 < general_reg_count ∧ reg_2 < general_reg_count
      ∧ imm < 0x100
  · rw [generate_reg2_imm8_eq opcode reg_1 reg_2 imm hc.1 hc.2.1 hc.2.2.1 hc.2.2.2] at h
    have e := Option.some.inj h
    have := hc.2.2.2
    subst e
    rw [bits_eq]; norm_num; omega
  · simp [generate_reg2_imm8, hc] at h

theorem generate_imm16_imm (opcode imm w : Nat)
    (h : generate_imm16 opcode imm = some w) : bits 15 0 w = imm := by
  by_cases hc : opcode < 0x10 ∧ imm < 0x10000
  · rw [generate_imm16_eq opcode imm hc.1 hc.2] at h
    have e := Option.some.inj h
    have := hc.2
    subst e
    rw [bits_eq]; norm_num; omega
  · simp [generate_imm16, hc] at h

theorem generate_reg1_imm8_imm (opcode reg imm w : Nat)
    (h : generate_reg1_imm8 opcode reg imm = some w) : bits 7 0 w = imm := by
  by_cases hc : opcode < 0x80 ∧ reg < general_reg_count ∧ imm < 0x100
  · rw [generate_reg1_imm8_eq opcode reg imm hc.1 hc.2.1 hc.2.2] at h
    have e := Option.some.inj h
    have := hc.2.2
    subst e
    rw [bits_eq]; norm_num; omega
  · simp [generate_reg1_imm8, hc] at h

theorem generate_imm8_imm (opcode imm w : Nat)
    (h : generate_imm8 opcode imm = some w) : bits 7 0 w = imm := by
  by_cases hc : opcode < 0x200 ∧ imm < 0x100
  · rw [generate_imm8_eq opcode imm hc.1 hc.2] at h
    have e := Option.some.inj h
    have := hc.2
    subst e
    rw [bits_eq]; norm_num; omega
  · simp [generate_imm8, hc] at h

/-- In a layout with an immediate, once the register tokens are passed the
immediate is parsed from the tokens that follow them, and it is the immediate
field of the word. -/
theorem generate_imm_field (s : OperandsType) (op_code : Nat) (regs imm_tokens : List Token)
    (labels : Labels) (w : Nat) (hs : has_imm s = true) (hr : regs.length = reg_count s)
    (h : generate s op_code (regs ++ imm_tokens) labels = some w) :
    ∃ v rest, parse_imm imm_tokens labels = some (v, rest) ∧ imm_field s w = v := by
  cases s <;> simp only [has_imm, Bool.false_eq_true] at hs <;> simp only [reg_count] at hr
  case Reg1Imm16 =>
    obtain ⟨r1, rfl⟩ := List.length_eq_one.1 hr
    simp only [generate, List.singleton_append, Option.bind_eq_bind] at h
    cases h1 : parse_reg (r1 :: imm_tokens) with
    | none => rw [h1] at h; simp at h
    | some x =>
      obtain ⟨v1, t1⟩ := x
      have := parse_reg_cons _ _ _ _ h1
      subst this
      rw [h1] at h
      simp only [Option.some_bind] at h
      cases h2 : parse_imm t1 labels with
      | none => rw [h2] at h; simp at h
      | some y =>
        obtain ⟨v, rest⟩ := y
        rw [h2] at h
        simp only [Option.some_bind] at h
        exact ⟨v, rest, rfl, generate_reg1_imm16_imm _ _ _ _ h⟩
  case Reg2Imm8 =>
    obtain ⟨r1, r2, rfl⟩ := List.length_eq_two.1 hr
    simp only [generate, List.cons_append, List.nil_append, Option.bind_eq_bind] at h
    cases h1 : parse_reg (r1 :: r2 :: imm_tokens) with
    | none => rw [h1] at h; simp at h
    | some x =>
      obtain ⟨v1, t1⟩ := x
      have := parse_reg_cons _ _ _ _ h1
      subst this
      rw [h1] at h
      simp only [Option.some_bind] at h
      cases h1b : parse_reg (r2 :: imm_tokens) with
      | none => rw [h1b] at h; simp at h
      | some x2 =>
        obtain ⟨v2, t2⟩ := x2
        have := parse_reg_cons _ _ _ _ h1b
        subst this
        rw [h1b] at h
        simp only [Option.some_bind] at h
        cases h2 : parse_imm t2 labels with
        | none => rw [h2] at h; simp at h
        | some y =>
          obtain ⟨v, rest⟩ := y
          rw [h2] at h
          simp only [Option.some_bind] at h
          exact ⟨v, rest, rfl, generate_reg2_imm8_imm _ _ _ _ _ h⟩
  case Imm16 =>
    obtain rfl := List.length_eq_zero.1 hr
    simp only [generate, List.nil_append, Option.bind_eq_bind] at h
    cases h2 : parse_imm imm_tokens labels with
    | none => rw [h2] at h; simp at h
    | some y =>
      obtain ⟨v, rest⟩ := y
      rw [h2] at h
      simp only [Option.some_bind] at h
      exact ⟨v, rest, rfl, generate_imm16_imm _ _ _ h⟩
  case Reg1Imm8 =>
    obtain ⟨r1, rfl⟩ := List.length_eq_one.1 hr
    simp only [generate, List.singleton_append, Option.bind_eq_bind] at h
    cases h1 : parse_reg (r1 :: imm_tokens) with
    | none => rw [h1] at h; simp at h
    | some x =>
      obtain ⟨v1, t1⟩ := x
      have := parse_reg_cons _ _ _ _ h1
      subst this
      rw [h1] at h
      simp only [Option.some_bind] at h
      cases h2 : parse_imm t1 labels with
      | none => rw [h2] at h; simp at h
      | some y =>
        obtain ⟨v, rest⟩ := y
        rw [h2] at h
        simp only [Option.some_bind] at h
        exact ⟨v, rest, rfl, generate_reg1_imm8_imm _ _ _ _ h⟩
  case Imm8 =>
    obtain rfl := List.length_eq_zero.1 hr
    simp only [generate, List.nil_append, Option.bind_eq_bind] at h
    cases h2 : parse_imm imm_tokens labels with
    | none => rw [h2] at h; simp at h
    | some y =>
      obtain ⟨v, rest⟩ := y
      rw [h2] at h
      simp only [Option.some_bind] at h
      exact ⟨v, rest, rfl, generate_imm8_imm _ _ _ h⟩

theorem generate_imm_none (s : OperandsType) (op_code : Nat) (regs imm_tokens : List Token)
    (labels : Labels) (hs : has_imm s = true) (hr : regs.length = reg_count s)
    (h : parse_imm imm_tokens labels = none) :
    generate s op_code (regs ++ imm_tokens) labels = none := by
  cases hg : generate s op_code (regs ++ imm_tokens) labels with
  | none => rfl
  | some w =>
    obtain ⟨v, rest, hv, _⟩ := generate_imm_field s op_code regs imm_tokens labels w hs hr hg
    rw [h] at hv
    exact Option.noConfusion hv

theorem parse_imm_label (p name : List Char) (extra : List Token) (labels : Labels) :
    parse_imm ({ type := TokenType.Period, str := p }
        :: { type := TokenType.Identifier, str := name } :: extra) labels
      = (labels.find name).map (fun v => (v % 2 ^ 32, extra)) := by
  simp only [parse_imm]
  cases labels.find name <;> simp

/-! ## The second pass, word by word -/

theorem emit_getElem (labels : Labels) (its : List (List Token)) : ∀ (ws : List Nat),
    emit labels its = some ws → ∀ (i : Nat) (t : List Token), its[i]? = some t →
    ∃ w, ws[i]? = some w ∧ assemble_impl t labels = some w := by
  induction its with
  | nil => intro ws _ i t hi; simp at hi
  | cons t0 rest ih =>
    intro ws h i t hi
    simp only [emit] at h
    cases h1 : assemble_impl t0 labels with
    | none => rw [h1] at h; simp at h
    | some w0 =>
      rw [h1] at h
      cases h2 : emit labels rest with
      | none => rw [h2] at h; simp at h
      | some ws2 =>
        rw [h2] at h
        simp only [Option.some.injEq] at h
        subst h
        cases i with
        | zero =>
          simp only [List.getElem?_cons_zero, Option.some.injEq] at hi
          subst hi
          exact ⟨w0, by simp, h1⟩
        | succ i =>
          simp only [List.getElem?_cons_succ] at hi
          obtain ⟨w, hw, ha⟩ := ih ws2 h2 i t hi
          exact ⟨w, by simpa using hw, ha⟩

theorem emit_none_of_mem (labels : Labels) (its : List (List Token)) (t : List Token)
    (hm : t ∈ its) (h : assemble_impl t labels = none) : emit labels its = none := by
  induction its with
  | nil => simp at hm
  | cons t0 rest ih =>
    simp only [emit]
    cases h1 : assemble_impl t0 labels with
    | none => rfl
    | some w0 =>
      simp only
      rcases List.mem_cons.1 hm with e | hm2
      · subst e; rw [h] at h1; exact Option.noConfusion h1
      · rw [ih hm2]

theorem mem_instruction_lines (lines : List (List Char)) (line : List Char)
    (hm : line ∈ lines) (hi : is_instruction_tokens (tokenize line) = true) :
    tokenize line ∈ instruction_lines lines := by
  unfold instruction_lines
  rw [List.mem_filter]
  exact ⟨List.mem_map_of_mem _ hm, hi⟩

/-- A program with an instruction line that `assemble_impl` rejects under every
label table is rejected as a whole. -/
theorem assemble_none_of_line (lines : List (List Char)) (line : List Char)
    (hm : line ∈ lines) (hi : is_instruction_tokens (tokenize line) = true)
    (h : ∀ st, scan { instruction_tokens := [], labels := [] } lines = some st →
      assemble_impl (tokenize line) st.labels = none) :
    assemble lines = none := by
  cases ha : assemble lines with
  | none => rfl
  | some ws =>
    obtain ⟨st, hs, _, he⟩ := assemble_some lines ws ha
    rw [emit_none_of_mem st.labels _ _ (mem_instruction_lines lines line hm hi) (h st hs)] at he
    exact Option.noConfusion he

theorem op_table_invalid (op : List Char) (h : op ∉ mnemonics) :
    op_table op = (OperandsType.Invalid, 0) := by
  simp only [mnemonics, List.mem_cons, List.mem_singleton, not_or, List.not_mem_nil,
    not_false_eq_true, and_true] at h
  obtain ⟨h1, h2, h3, h4, h5, h6, h7, h8, h9, h10, h11, h12, h13, h14, h15, h16, h17, h18,
    h19, h20, h21, h22, h23⟩ := h
  unfold op_table
  rw [if_neg h1, if_neg h2, if_neg h3, if_neg h4, if_neg h5, if_neg h6, if_neg h7, if_neg h8,
    if_neg h9, if_neg h10, if_neg h11, if_neg h12, if_neg h13, if_neg h14, if_neg h15,
    if_neg h16, if_neg h17, if_neg h18, if_neg h19, if_neg h20, if_neg h21, if_neg h22,
    if_neg h23]

/-- C10. Unknown mnemonic: a program with an instruction line whose first token
is an identifier that is none of the 23 mnemonics of the table is rejected by
`assemble` (no word is returned), whatever the other lines are. -/
theorem unknown_mnemonic_aborts (lines : List (List Char)) (line : List Char)
    (op : List Char) (rest : List Token) (hm : line ∈ lines)
    (ht : tokenize line = { type := TokenType.Identifier, str := op } :: rest)
    (hop : op ∉ mnemonics) :
    assemble lines = none := by
  refine assemble_none_of_line lines line hm (by rw [ht]; rfl) ?_
  intro st _
  rw [ht]
  simp [assemble_impl, op_table_invalid op hop, generate]

/-- Instance of C10: the unknown mnemonic "mov" between two good lines. -/
theorem unknown_mnemonic_aborts_witness :
    assemble ["exit".toList, "mov r1 r2".toList, "exit".toList] = none :=
  unknown_mnemonic_aborts ["exit".toList, "mov r1 r2".toList, "exit".toList]
    "mov r1 r2".toList "mov".toList
    [{ type := TokenType.Identifier, str := "r1".toList },
     { type := TokenType.Identifier, str := "r2".toList }]
    (by decide) (by decide) (by decide)

/-! ## The label table after the first pass -/

theorem find_set (labels : Labels) (key name : List Char) (v : Nat) :
    (labels.set key v).find name = if key = name then some v else labels.find name := by
  unfold Labels.set Labels.find
  rw [List.lookup_cons]
  by_cases h : key = name
  · subst h; simp
  · have : (name == key) = false := by
      rw [beq_eq_false_iff_ne]
      exact fun e => h e.symm
    rw [this, if_neg h]

theorem scan_line_find (st st2 : ScanState) (line name : List Char)
    (h : scan_line st line = some st2) :
    st2.labels.find name
      = if declares name line = true then some st.instruction_tokens.length
        else st.labels.find name := by
  unfold scan_line at h
  split_ifs at h with hl
  unfold declares
  cases ht : tokenize line with
  | nil =>
    rw [ht] at h
    simp only [Option.some.injEq] at h
    subst h
    simp
  | cons front rest =>
    rw [ht] at h
    simp only at h
    split_ifs at h with hp
    · cases rest with
      | nil => simp at h
      | cons second rest2 =>
        simp only [Option.some.injEq] at h
        subst h
        simp only [find_set, hp, true_and, decide_eq_true_eq]
    · simp only [Option.some.injEq] at h
      subst h
      cases rest <;> simp [hp]

theorem scan_find_of_not_declared (name : List Char) (lines : List (List Char)) :
    ∀ (st st2 : ScanState), (∀ l ∈ lines, declares name l = false) →
    scan st lines = some st2 → st2.labels.find name = st.labels.find name := by
  induction lines with
  | nil =>
    intro st st2 _ h
    simp only [scan, Option.some.injEq] at h
    subst h
    rfl
  | cons line rest ih =>
    intro st st2 hd h
    simp only [scan] at h
    cases h1 : scan_line st line with
    | none => rw [h1] at h; simp at h
    | some st1 =>
      rw [h1] at h
      simp only at h
      rw [ih st1 st2 (fun l hl => hd l (List.mem_cons_of_mem _ hl)) h,
        scan_line_find st st1 line name h1, hd line (List.mem_cons_self _ _)]
      simp

/-- A name that no line declares is not in the table after the first pass. -/
theorem scan_find_undeclared (name : List Char) (lines : List (List Char)) (st : ScanState)
    (hs : scan { instruction_tokens := [], labels := [] } lines = some st)
    (hd : ∀ l ∈ lines, declares name l = false) : st.labels.find name = none := by
  rw [scan_find_of_not_declared name lines _ st hd hs]
  rfl

/-- C7. Undefined label: a program with an instruction line whose mnemonic
takes an immediate operand and whose immediate operand is ".name", where no
label line of the program declares name, is rejected by `assemble`: no word is
returned. -/
theorem undefined_label_aborts (lines : List (List Char)) (line : List Char)
    (op p name : List Char) (regs extra : List Token) (hm : line ∈ lines)
    (ht : tokenize line = { type := TokenType.Identifier, str := op }
      :: (regs ++ { type := TokenType.Period, str := p }
        :: { type := TokenType.Identifier, str := name } :: extra))
    (hs : has_imm (op_table op).1 = true) (hr : regs.length = reg_count (op_table op).1)
    (hd : ∀ l ∈ lines, declares name l = false) :
    assemble lines = none := by
  refine assemble_none_of_line lines line hm (by rw [ht]; rfl) ?_
  intro st hst
  rw [ht]
  simp only [assemble_impl, ne_eq, not_true_eq_false, if_false]
  refine generate_imm_none _ _ regs _ st.labels hs hr ?_
  rw [parse_imm_label, scan_find_undeclared name lines st hst hd]
  rfl

/-- Instance of C7: the one-line program "jmpi .nowhere". -/
theorem undefined_label_aborts_witness : assemble ["jmpi .nowhere".toList] = none :=
  undefined_label_aborts ["jmpi .nowhere".toList] "jmpi .nowhere".toList "jmpi".toList
    ".".toList "nowhere".toList [] [] (by decide) (by decide) (by decide) (by decide)
    (by decide)

/-! ## Label references -/

/-- C6. Forward and backward references resolve alike: whenever `assemble`
succeeds, every word is `assemble_impl` of its line under one and the same
label table, so two instruction lines with the same tokens give the same word
wherever they stand; and a reference to a label resolves to the same index
whatever follows it. -/
theorem same_tokens_same_word (lines : List (List Char)) (ws : List Nat)
    (h : assemble lines = some ws) :
    (∃ labels : Labels, ∀ (i : Nat) (t : List Token), (instruction_lines lines)[i]? = some t →
      ∃ w, ws[i]? = some w ∧ assemble_impl t labels = some w) ∧
    (∀ (i j : Nat) (t : List Token), (instruction_lines lines)[i]? = some t →
      (instruction_lines lines)[j]? = some t →
      ∃ w, ws[i]? = some w ∧ ws[j]? = some w) ∧
    (∀ (labels : Labels) (p q name : List Char) (extra1 extra2 : List Token),
      (parse_imm ({ type := TokenType.Period, str := p }
          :: { type := TokenType.Identifier, str := name } :: extra1) labels).map Prod.fst
        = (parse_imm ({ type := TokenType.Period, str := q }
          :: { type := TokenType.Identifier, str := name } :: extra2) labels).map Prod.fst) := by
  obtain ⟨st, _, _, he⟩ := assemble_some lines ws h
  refine ⟨⟨st.labels, emit_getElem st.labels _ ws he⟩, ?_, ?_⟩
  · intro i j t hi hj
    obtain ⟨w, hw, ha⟩ := emit_getElem st.labels _ ws he i t hi
    obtain ⟨w2, hw2, ha2⟩ := emit_getElem st.labels _ ws he j t hj
    rw [ha] at ha2
    exact ⟨w, hw, by rw [hw2, Option.some.inj ha2]⟩
  · intro labels p q name extra1 extra2
    rw [parse_imm_label, parse_imm_label]
    cases labels.find name <;> rfl

/-- Instance of C6: "jmpi .end" before and after the declaration of "end"
gives the word 0xD00001 both times. -/
theorem same_tokens_same_word_witness :
    assemble ["jmpi .end".toList, ".end".toList, "jmpi .end".toList]
        = some [0xD00001, 0xD00001] ∧
    ∃ w, [0xD00001, 0xD00001][0]? = some w ∧ [0xD00001, 0xD00001][1]? = some w :=
  ⟨by decide,
    (same_tokens_same_word ["jmpi .end".toList, ".end".toList, "jmpi .end".toList]
      [0xD00001, 0xD00001] (by decide)).2.1 0 1
      [{ type := TokenType.Identifier, str := "jmpi".toList },
       { type := TokenType.Period, str := ".".toList },
       { type := TokenType.Identifier, str := "end".toList }] (by decide) (by decide)⟩

/-! ## Register operands that `parse_reg` lets through -/

/-- C8, the code at the failing input: the register text "r4294967296" is read
as 2^32 by `stoul` and becomes 0 as a `uint32_t`, so the line is assembled to
the word of "add r0 r0 r0"; "r16" is stopped by the assertion of the
encoder. -/
theorem register_out_of_range_emitted :
    assemble ["add r4294967296 r0 r0".toList] = some [0xE00000] ∧
    assemble ["add r16 r0 r0".toList] = none := by
  constructor <;> decide

/-- C9, the code at the failing inputs: the register texts "x1" and "r1x" are
both read as register 1 and the lines are assembled. -/
theorem malformed_register_emitted :
    assemble ["add x1 r2 r3".toList] = some [0xE00123] ∧
    assemble ["add r1x r2 r3".toList] = some [0xE00123] := by
  constructor <;> decide

/-! ## A program of `n` lines "exit", the declaration ".L" and "jmpi .L" -/

theorem is_prefix_eq_empty_iff (text : List Char) :
    is_prefix_of_token text = TokenType.Empty ↔ text = [] := by
  cases text with
  | nil => simp [is_prefix_of_token]
  | cons front rest =>
    simp only [is_prefix_of_token, reduceCtorEq, iff_false]
    split_ifs <;> simp

theorem is_prefix_of_text_kind (text : List Char) (k : TokenType)
    (h : text_kind text = some k) :
    is_prefix_of_token text = k ∧ is_token_type k = true := by
  unfold text_kind at h
  split_ifs at h with h1 h2 h3 h4 h5
  · cases h; subst h1; exact ⟨by decide, by decide⟩
  · cases h; subst h2; exact ⟨by decide, by decide⟩
  · cases h; subst h3; exact ⟨by decide, by decide⟩
  · cases h
    cases text with
    | nil => simp [is_identifier_text] at h4
    | cons front rest =>
      simp only [is_identifier_text, Bool.and_eq_true] at h4
      exact ⟨is_prefix_identifier front rest h4.1 h4.2, by decide⟩
  · cases h
    cases text with
    | nil => simp [is_number_text] at h5
    | cons front rest =>
      simp only [is_number_text, Bool.and_eq_true] at h5
      exact ⟨is_prefix_number front rest h5.1 h5.2, by decide⟩

theorem text_kind_of_is_prefix (text : List Char)
    (h : is_token_type (is_prefix_of_token text) = true) :
    text_kind text = some (is_prefix_of_token text) := by
  cases text with
  | nil => simp [is_prefix_of_token, is_token_type] at h
  | cons front rest =>
    by_cases h1 : front = '.'
    · subst h1
      cases rest with
      | nil => decide
      | cons a r => simp [is_prefix_of_token, is_token_type] at h
    by_cases h2 : front = '['
    · subst h2
      cases rest with
      | nil => decide
      | cons a r => simp [is_prefix_of_token, is_token_type] at h
    by_cases h3 : front = ']'
    · subst h3
      cases rest with
      | nil => decide
      | cons a r => simp [is_prefix_of_token, is_token_type] at h
    have n1 : ¬ (front :: rest = ['.']) := by simp [h1]
    have n2 : ¬ (front :: rest = ['[']) := by simp [h2]
    have n3 : ¬ (front :: rest = [']']) := by simp [h3]
    by_cases ha : front.isAlpha = true
    · have hr : rest.all Char.isAlphanum = true := by
        by_contra hc
        simp [is_prefix_of_token, is_token_type, h1, h2, h3, ha,
          isAlpha_isAlphanum front ha] at h
        exact hc (by simpa using h.2)
      rw [is_prefix_identifier front rest ha hr]
      simp [text_kind, n1, n2, n3, is_identifier_text, ha]
      simpa using hr
    · by_cases hd : front.isDigit = true
      · have hr : rest.all Char.isDigit = true := by
          by_contra hc
          simp [is_prefix_of_token, is_token_type, h1, h2, h3, ha, hd] at h
          exact hc (by simpa using h.2)
        rw [is_prefix_number front rest hd hr]
        simp [text_kind, n1, n2, n3, is_identifier_text, ha, is_number_text, hd]
        simpa using hr
      · simp [is_prefix_of_token, is_token_type, h1, h2, h3, ha, hd] at h

theorem is_prefix_single_iff_junk (ch : Char) :
    is_prefix_of_token [ch] = TokenType.Invalid ↔ is_junk ch = true := by
  constructor
  · intro h
    rw [is_junk_iff]
    by_cases h1 : ch = '.'
    · subst h1; exact absurd h (by decide)
    by_cases h2 : ch = '['
    · subst h2; exact absurd h (by decide)
    by_cases h3 : ch = ']'
    · subst h3; exact absurd h (by decide)
    refine ⟨h1, h2, h3, ?_, ?_⟩
    · by_contra ha
      simp only [Bool.not_eq_false] at ha
      rw [is_prefix_identifier ch [] ha rfl] at h
      exact TokenType.noConfusion h
    · by_contra hd
      simp only [Bool.not_eq_false] at hd
      rw [is_prefix_number ch [] hd rfl] at h
      exact TokenType.noConfusion h
  · intro h
    exact is_prefix_snoc_junk [] ch h

/-! ## What the loop of `tokenize` keeps -/

theorem tokenize_step_eq (st : TokState) (ch : Char) :
    tokenize_step st ch
      = if is_prefix_of_token (st.current ++ [ch]) = TokenType.Invalid then
          { tokens := st.tokens ++
              (if is_token_type (is_prefix_of_token st.current) = true then
                [{ type := is_prefix_of_token st.current, str := st.current }] else []),
            current := if is_junk ch = true then [] else [ch] }
        else { tokens := st.tokens, current := st.current ++ [ch] } := by
  unfold tokenize_step
  by_cases h : is_prefix_of_token (st.current ++ [ch]) = TokenType.Invalid
  · rw [if_pos h, if_pos h]
    by_cases hj : is_junk ch = true
    · rw [if_pos ((is_prefix_single_iff_junk ch).2 hj), if_pos hj]
      by_cases hv : is_token_type (is_prefix_of_token st.current) = true
      · have hv2 := hv
        simp only [is_token_type, Bool.and_eq_true, decide_eq_true_eq] at hv2
        simp [hv, hv2]
      · have hv2 := hv
        simp only [is_token_type, Bool.and_eq_true, decide_eq_true_eq] at hv2
        simp [hv, hv2]
    · rw [if_neg (fun e => hj ((is_prefix_single_iff_junk ch).1 e)), if_neg hj]
      by_cases hv : is_token_type (is_prefix_of_token st.current) = true
      · have hv2 := hv
        simp only [is_token_type, Bool.and_eq_true, decide_eq_true_eq] at hv2
        simp [hv, hv2]
      · have hv2 := hv
        simp only [is_token_type, Bool.and_eq_true, decide_eq_true_eq] at hv2
        simp [hv, hv2]
  · rw [if_neg h, if_neg h]

theorem is_token_type_of_ne (text : List Char) (h1 : text ≠ [])
    (h2 : is_prefix_of_token text ≠ TokenType.Invalid) :
    is_token_type (is_prefix_of_token text) = true := by
  simp only [is_token_type, Bool.and_eq_true, decide_eq_true_eq]
  exact ⟨fun e => h1 ((is_prefix_eq_empty_iff text).1 e), h2⟩

theorem tokenize_step_good (st : TokState) (ch : Char) (h : st.good) :
    (tokenize_step st ch).good := by
  rw [tokenize_step_eq]
  by_cases hi : is_prefix_of_token (st.current ++ [ch]) = TokenType.Invalid
  · rw [if_pos hi]
    refine ⟨?_, ?_⟩
    · by_cases hj : is_junk ch = true
      · simp [hj, is_prefix_of_token]
      · simp only [hj, Bool.false_eq_true, if_false]
        exact fun e => hj ((is_prefix_single_iff_junk ch).1 e)
    · intro t ht
      simp only [List.mem_append] at ht
      rcases ht with ht | ht
      · exact h.2 t ht
      · by_cases hv : is_token_type (is_prefix_of_token st.current) = true
        · simp only [hv, if_true, List.mem_singleton] at ht
          subst ht
          exact ⟨rfl, hv⟩
        · simp [hv] at ht
  · rw [if_neg hi]
    exact ⟨hi, h.2⟩

theorem tokenize_step_content (st : TokState) (ch : Char) (h : st.good) :
    (tokenize_step st ch).content
      = st.content ++ (if is_junk ch = true then [] else [ch]) := by
  rw [tokenize_step_eq]
  by_cases hi : is_prefix_of_token (st.current ++ [ch]) = TokenType.Invalid
  · rw [if_pos hi]
    by_cases hc : st.current = []
    · have hv : is_token_type (is_prefix_of_token st.current) = false := by
        rw [hc]; decide
      simp [TokState.content, hv, hc]
    · have hv := is_token_type_of_ne st.current hc h.1
      simp [TokState.content, hv]
  · rw [if_neg hi]
    have hj : ¬ is_junk ch = true := fun e => hi (is_prefix_snoc_junk st.current ch e)
    simp [TokState.content, hj]

theorem tokenize_loop_good (line : List Char) : ∀ (st : TokState), st.good →
    (tokenize_loop st line).good ∧
    (tokenize_loop st line).content = st.content ++ line.filter (fun c => !is_junk c) := by
  induction line with
  | nil => intro st h; exact ⟨h, by simp [tokenize_loop]⟩
  | cons ch rest ih =>
    intro st h
    rw [tokenize_loop_cons]
    obtain ⟨g, c⟩ := ih (tokenize_step st ch) (tokenize_step_good st ch h)
    refine ⟨g, ?_⟩
    rw [c, tokenize_step_content st ch h, List.filter_cons]
    by_cases hj : is_junk ch = true <;> simp [hj]

theorem tokenize_tokens (line : List Char) :
    (∀ t ∈ tokenize line, t.type = is_prefix_of_token t.str ∧ is_token_type t.type = true) ∧
    ((tokenize line).map Token.str).flatten = line.filter (fun c => !is_junk c) := by
  have h0 : TokState.good { tokens := [], current := [] } :=
    ⟨by decide, by intro t ht; simp at ht⟩
  obtain ⟨g, c⟩ := tokenize_loop_good line _ h0
  unfold tokenize tokenize_finish
  simp only [TokState.content, List.map_nil, List.flatten_nil, List.nil_append] at c
  by_cases hc : (tokenize_loop { tokens := [], current := [] } line).current = []
  · simp only [hc, ne_eq, not_true_eq_false, if_false]
    refine ⟨g.2, ?_⟩
    rw [← c, hc, List.append_nil]
  · simp only [hc, ne_eq, not_false_eq_true, if_true]
    refine ⟨?_, ?_⟩
    · intro t ht
      simp only [List.mem_append, List.mem_singleton] at ht
      rcases ht with ht | ht
      · exact g.2 t ht
      · subst ht
        exact ⟨rfl, is_token_type_of_ne _ hc g.1⟩
    · rw [← c]
      simp

theorem token_str_ne_nil (t : Token)
    (h : t.type = is_prefix_of_token t.str ∧ is_token_type t.type = true) : t.str ≠ [] := by
  intro e
  have h2 := h.2
  rw [h.1, e] at h2
  exact absurd h2 (by decide)

/-- C17. `tokenize` discards exactly the junk characters: the texts of the
tokens of a line, one after the other, are the line without its characters
that are no ASCII letter, no digit and none of '.', '[', ']'.  So a line has no
token if and only if every character of it is such a junk character (it has no
letter, digit, '.', '[' or ']'). -/
theorem tokenize_keeps_non_junk (line : List Char) :
    ((tokenize line).map Token.str).flatten = line.filter (fun c => !is_junk c) ∧
    (tokenize line = [] ↔ ∀ c ∈ line, is_junk c = true) := by
  obtain ⟨g, c⟩ := tokenize_tokens line
  refine ⟨c, ?_, ?_⟩
  · intro h
    rw [h] at c
    simp only [List.map_nil, List.flatten_nil] at c
    intro x hx
    by_contra hj
    have : x ∈ line.filter (fun c => !is_junk c) := by
      rw [List.mem_filter]
      exact ⟨hx, by simpa using hj⟩
    rw [← c] at this
    simp at this
  · intro h
    have e : line.filter (fun c => !is_junk c) = [] := by
      rw [List.filter_eq_nil_iff]
      intro x hx
      simp [h x hx]
    rw [e] at c
    cases ht : tokenize line with
    | nil => rfl
    | cons t rest =>
      rw [ht] at c g
      have hne := token_str_ne_nil t (g t (List.mem_cons_self _ _))
      simp only [List.map_cons, List.flatten_cons, List.append_eq_nil] at c
      exact absurd c.1 hne

/-- Instance of C17: the line " add r1,r2 " keeps "addr1r2". -/
theorem tokenize_keeps_non_junk_witness :
    ((tokenize " add r1,r2 ".toList).map Token.str).flatten = "addr1r2".toList ∧
    tokenize " ,; ".toList = [] := by
  constructor
  · rw [(tokenize_keeps_non_junk " add r1,r2 ".toList).1]
    decide
  · exact (tokenize_keeps_non_junk " ,; ".toList).2.2 (by decide)

/-- C18. Every token that `tokenize` returns has a non-empty text and a kind
that is neither Invalid nor Empty, also the token committed at the end of the
line; its kind is `is_prefix_of_token` of its text: an Identifier is a letter
followed by letters and digits, a Number is all digits, and BracketL, BracketR
and Period are the single characters '[', ']' and '.'. -/
theorem tokenize_tokens_well_formed (line : List Char) (t : Token)
    (h : t ∈ tokenize line) :
    t.str ≠ [] ∧ t.type ≠ TokenType.Invalid ∧ t.type ≠ TokenType.Empty ∧
    t.type = is_prefix_of_token t.str ∧
    ((t.type = TokenType.Identifier ∧ is_identifier_text t.str = true) ∨
     (t.type = TokenType.Number ∧ is_number_text t.str = true) ∨
     (t.type = TokenType.BracketL ∧ t.str = ['[']) ∨
     (t.type = TokenType.BracketR ∧ t.str = [']']) ∨
     (t.type = TokenType.Period ∧ t.str = ['.'])) := by
  have g := (tokenize_tokens line).1 t h
  have hv := g.2
  simp only [is_token_type, Bool.and_eq_true, decide_eq_true_eq] at hv
  refine ⟨token_str_ne_nil t g, hv.2, hv.1, g.1, ?_⟩
  have hk := text_kind_of_is_prefix t.str (g.1 ▸ g.2)
  rw [← g.1] at hk
  unfold text_kind at hk
  split_ifs at hk with h1 h2 h3 h4 h5
  · exact Or.inr (Or.inr (Or.inr (Or.inr ⟨(Option.some.inj hk).symm, h1⟩)))
  · exact Or.inr (Or.inr (Or.inl ⟨(Option.some.inj hk).symm, h2⟩))
  · exact Or.inr (Or.inr (Or.inr (Or.inl ⟨(Option.some.inj hk).symm, h3⟩)))
  · exact Or.inl ⟨(Option.some.inj hk).symm, h4⟩
  · exact Or.inr (Or.inl ⟨(Option.some.inj hk).symm, h5⟩)

/-- Instance of C18: the token committed at the end of "jmp r12". -/
theorem tokenize_tokens_well_formed_witness :
    "r12".toList ≠ [] ∧ TokenType.Identifier ≠ TokenType.Invalid ∧
    TokenType.Identifier ≠ TokenType.Empty ∧
    TokenType.Identifier = is_prefix_of_token "r12".toList ∧
    ((TokenType.Identifier = TokenType.Identifier ∧ is_identifier_text "r12".toList = true) ∨
     (TokenType.Identifier = TokenType.Number ∧ is_number_text "r12".toList = true) ∨
     (TokenType.Identifier = TokenType.BracketL ∧ "r12".toList = ['[']) ∨
     (TokenType.Identifier = TokenType.BracketR ∧ "r12".toList = [']']) ∨
     (TokenType.Identifier = TokenType.Period ∧ "r12".toList = ['.'])) :=
  tokenize_tokens_well_formed "jmp r12".toList
    { type := TokenType.Identifier, str := "r12".toList } (by decide)

/-! ## Well-formed texts, with and without a space between them -/

theorem is_prefix_snoc_not_alnum (cur : List Char) (hne : cur ≠ []) (c : Char)
    (hc : c.isAlphanum = false) :
    is_prefix_of_token (cur ++ [c]) = TokenType.Invalid := by
  have hd : c.isDigit = false := by
    cases h : c.isDigit
    · rfl
    · rw [isDigit_isAlphanum c h] at hc
      exact Bool.noConfusion hc
  cases cur with
  | nil => exact absurd rfl hne
  | cons front rest =>
    simp only [is_prefix_of_token, List.cons_append, List.length_cons, List.length_append,
      List.length_singleton, List.all_cons, List.all_append, List.all_nil, Bool.and_true,
      hc, hd, Bool.and_false, Bool.false_eq_true, if_false]
    split_ifs <;> first | rfl | omega

theorem token_of_text_eq (text : List Char) (k : TokenType) (h : text_kind text = some k) :
    token_of_text text = { type := is_prefix_of_token text, str := text } := by
  unfold token_of_text
  rw [h, (is_prefix_of_text_kind text k h).1]
  rfl

theorem text_kind_ne_nil (text : List Char) (k : TokenType) (h : text_kind text = some k) :
    text ≠ [] := by
  rintro rfl
  have e : text_kind [] = none := rfl
  rw [e] at h
  exact Option.noConfusion h

theorem is_punct_text_iff (text : List Char) :
    is_punct_text text = true ↔ text = ['.'] ∨ text = ['['] ∨ text = [']'] := by
  simp [is_punct_text, or_assoc]

/-- A space commits the candidate. -/
theorem tokenize_step_space (T : List Token) (cur : List Char)
    (hcur : cur ≠ [] → ∃ k, text_kind cur = some k) :
    tokenize_step { tokens := T, current := cur } ' '
      = { tokens := T ++ (if cur = [] then [] else [token_of_text cur]), current := [] } := by
  by_cases hc : cur = []
  · subst hc
    rw [tokenize_step_junk_empty T ' ' (by decide)]
    simp
  · obtain ⟨k, hk⟩ := hcur hc
    have hp := is_prefix_of_text_kind cur k hk
    have hv := hp.2
    simp only [is_token_type, Bool.and_eq_true, decide_eq_true_eq] at hv
    rw [tokenize_step_junk T cur ' ' (by decide) (hp.1 ▸ hv.1) (hp.1 ▸ hv.2),
      if_neg hc, token_of_text_eq cur k hk]

/-- The first character of a text commits the candidate before it when no
space is needed between the two. -/
theorem tokenize_step_first (T : List Token) (cur : List Char) (f : Char)
    (hf : is_junk f = false)
    (hcur : cur ≠ [] → (∃ k, text_kind cur = some k) ∧
      is_prefix_of_token (cur ++ [f]) = TokenType.Invalid) :
    tokenize_step { tokens := T, current := cur } f
      = { tokens := T ++ (if cur = [] then [] else [token_of_text cur]), current := [f] } := by
  by_cases hc : cur = []
  · subst hc
    rw [tokenize_step_start T f (fun e => by
      rw [(is_prefix_single_iff_junk f).1 e] at hf; exact Bool.noConfusion hf)]
    simp
  · obtain ⟨⟨k, hk⟩, hi⟩ := hcur hc
    have hp := is_prefix_of_text_kind cur k hk
    rw [tokenize_step_eq]
    simp only [hi, if_true, hp.1, hp.2, hf, Bool.false_eq_true, if_false, if_neg hc,
      token_of_text_eq cur k hk]

theorem front_not_junk (front : Char) (rest : List Char) (k : TokenType)
    (h : text_kind (front :: rest) = some k) : is_junk front = false := by
  have hp := is_prefix_of_text_kind _ k h
  cases hj : is_junk front
  · rfl
  · exfalso
    have hv := hp.2
    simp only [is_token_type, Bool.and_eq_true, decide_eq_true_eq] at hv
    have hjj := (is_junk_iff front).1 hj
    have : is_prefix_of_token (front :: rest) = TokenType.Invalid := by
      simp [is_prefix_of_token, hjj.1, hjj.2.1, hjj.2.2.1, hjj.2.2.2.1, hjj.2.2.2.2]
    rw [hp.1] at this
    exact hv.2 this

/-- After its first character a text is taken whole. -/
theorem tokenize_loop_rest (T : List Token) (front : Char) (rest : List Char) (k : TokenType)
    (h : text_kind (front :: rest) = some k) :
    tokenize_loop { tokens := T, current := [front] } rest
      = { tokens := T, current := front :: rest } := by
  unfold text_kind at h
  split_ifs at h with h1 h2 h3 h4 h5
  · simp only [List.cons.injEq] at h1; rw [h1.2]; rfl
  · simp only [List.cons.injEq] at h2; rw [h2.2]; rfl
  · simp only [List.cons.injEq] at h3; rw [h3.2]; rfl
  · simp only [is_identifier_text, Bool.and_eq_true] at h4
    rw [tokenize_loop_alnum T front h4.1 rest [] rfl h4.2]
    rfl
  · simp only [is_number_text, Bool.and_eq_true] at h5
    rw [tokenize_loop_digits T rest [front] (by simp [h5.1]) h5.2]
    rfl

theorem boundary_invalid (cur : List Char) (front : Char) (rest : List Char)
    (hc : cur ≠ []) (h : is_punct_text cur = true ∨ is_punct_text (front :: rest) = true) :
    is_prefix_of_token (cur ++ [front]) = TokenType.Invalid := by
  rcases h with h | h
  · rw [is_punct_text_iff] at h
    rcases h with h | h | h <;> subst h <;> simp [is_prefix_of_token]
  · rw [is_punct_text_iff] at h
    simp only [List.cons.injEq] at h
    rcases h with h | h | h <;> obtain ⟨rfl, _⟩ := h <;>
      exact is_prefix_snoc_not_alnum cur hc _ (by decide)

theorem tokenize_join_texts (ps : List (Bool × List Char)) :
    ∀ (T : List Token) (prev : List Char),
    (∀ p ∈ ps, ∃ k, text_kind p.2 = some k) →
    (prev ≠ [] → ∃ k, text_kind prev = some k) →
    separators_ok prev ps = true →
    tokenize_finish (tokenize_loop { tokens := T, current := prev } (join_texts ps))
      = T ++ (if prev = [] then [] else [token_of_text prev])
        ++ ps.map (fun p => token_of_text p.2) := by
  induction ps with
  | nil =>
    intro T prev _ hprev _
    simp only [join_texts, tokenize_loop_nil, tokenize_finish, List.map_nil, List.append_nil]
    by_cases hc : prev = []
    · simp [hc]
    · obtain ⟨k, hk⟩ := hprev hc
      simp [hc, token_of_text_eq prev k hk]
  | cons p rest ih =>
    intro T prev hps hprev hsep
    obtain ⟨sep, text⟩ := p
    obtain ⟨k, hk⟩ := hps (sep, text) (List.mem_cons_self _ _)
    simp only [separators_ok, Bool.and_eq_true, Bool.or_eq_true, decide_eq_true_eq] at hsep
    have hne := text_kind_ne_nil text k hk
    obtain ⟨front, more, rfl⟩ := List.exists_cons_of_ne_nil hne
    have hj := front_not_junk front more k hk
    have key : tokenize_loop { tokens := T, current := prev }
        ((if sep = true then [' '] else []) ++ front :: more)
        = { tokens := T ++ (if prev = [] then [] else [token_of_text prev]),
            current := front :: more } := by
      by_cases hs : sep = true
      · rw [if_pos hs, List.singleton_append, tokenize_loop_cons, tokenize_step_space T prev hprev,
          tokenize_loop_cons, tokenize_step_first _ [] front hj (fun e => absurd rfl e),
          tokenize_loop_rest _ front more k hk]
        simp
      · rw [if_neg hs, List.nil_append, tokenize_loop_cons,
          tokenize_step_first T prev front hj (fun hc => ⟨hprev hc, boundary_invalid prev front
            more hc (by
              rcases hsep.1 with ((h | h) | h) | h
              · exact absurd h hs
              · exact absurd h hc
              · exact Or.inl h
              · exact Or.inr h)⟩),
          tokenize_loop_rest _ front more k hk]
    simp only [join_texts]
    rw [tokenize_loop_append, key,
      ih _ (front :: more) (fun q hq => hps q (List.mem_cons_of_mem _ hq)) (fun _ => ⟨k, hk⟩)
        hsep.2]
    simp

theorem join_spaced_eq (text : List Char) (rest : List (List Char)) :
    join_spaced (text :: rest)
      = join_texts ((false, text) :: rest.map (fun t => (true, t))) := by
  induction rest generalizing text with
  | nil => simp [join_spaced, join_texts]
  | cons next rest ih =>
    rw [join_spaced, ih next]
    simp [join_texts]

theorem separators_ok_spaced (prev : List Char) (rest : List (List Char)) :
    separators_ok prev (rest.map (fun t => (true, t))) = true := by
  induction rest generalizing prev with
  | nil => rfl
  | cons next rest ih => simp [separators_ok, ih]

/-- C11. The two lines of the specification tokenize as it says.  In general
the tokens of well-formed texts (an identifier, a letter followed by letters
and digits; a number, one or more digits; or one of ".", "[", "]") joined by a
single space are exactly those texts in order, each with its kind; and the
space may be left out between two texts of which at least one is ".", "[" or
"]". -/
theorem tokenize_well_formed_texts :
    tokenize "add r1 r2 r3".toList
      = [{ type := TokenType.Identifier, str := "add".toList },
         { type := TokenType.Identifier, str := "r1".toList },
         { type := TokenType.Identifier, str := "r2".toList },
         { type := TokenType.Identifier, str := "r3".toList }] ∧
    tokenize "loadi r0 .start".toList
      = [{ type := TokenType.Identifier, str := "loadi".toList },
         { type := TokenType.Identifier, str := "r0".toList },
         { type := TokenType.Period, str := ".".toList },
         { type := TokenType.Identifier, str := "start".toList }] ∧
    (∀ texts : List (List Char), (∀ t ∈ texts, (text_kind t).isSome = true) →
      tokenize (join_spaced texts) = texts.map token_of_text) ∧
    (∀ ps : List (Bool × List Char), (∀ p ∈ ps, (text_kind p.2).isSome = true) →
      separators_ok [] ps = true →
      tokenize (join_texts ps) = ps.map (fun p => token_of_text p.2)) := by
  refine ⟨by decide, by decide, ?_, ?_⟩
  · intro texts h
    cases texts with
    | nil => rfl
    | cons text rest =>
      rw [join_spaced_eq]
      unfold tokenize
      rw [tokenize_join_texts _ [] [] (by
          intro p hp
          simp only [List.mem_cons, List.mem_map] at hp
          rcases hp with rfl | ⟨t, ht, rfl⟩
          · exact Option.isSome_iff_exists.1 (h text (List.mem_cons_self _ _))
          · exact Option.isSome_iff_exists.1 (h t (List.mem_cons_of_mem _ ht)))
        (fun e => absurd rfl e)
        (by simp [separators_ok, separators_ok_spaced])]
      simp
  · intro ps h hs
    unfold tokenize
    rw [tokenize_join_texts ps [] [] (fun p hp => Option.isSome_iff_exists.1 (h p hp))
      (fun e => absurd rfl e) hs]
    simp

/-- Instance of C11: "loadi r0 .start" from its four texts, the space left out
after "."; and "a[1]" from four texts with no space at all. -/
theorem tokenize_well_formed_texts_witness :
    join_texts [(false, "loadi".toList), (true, "r0".toList), (true, ".".toList),
        (false, "start".toList)] = "loadi r0 .start".toList ∧
    tokenize (join_texts [(false, "a".toList), (false, "[".toList), (false, "1".toList),
        (false, "]".toList)])
      = [(false, "a".toList), (false, "[".toList), (false, "1".toList),
          (false, "]".toList)].map (fun p => token_of_text p.2) :=
  ⟨by decide, tokenize_well_formed_texts.2.2.2 _ (by decide) (by decide)⟩

/-! ## Junk characters -/

theorem tokenize_step_junk_eq (st : TokState) (a b : Char) (ha : is_junk a = true)
    (hb : is_junk b = true) : tokenize_step st a = tokenize_step st b := by
  rw [tokenize_step_eq, tokenize_step_eq, is_prefix_snoc_junk st.current a ha,
    is_prefix_snoc_junk st.current b hb, ha, hb]
  simp only [if_true]

theorem same_up_to_junk_loop (l : List Char) : ∀ (m : List Char) (st : TokState),
    same_up_to_junk l m = true → tokenize_loop st l = tokenize_loop st m ∧ l.length = m.length := by
  induction l with
  | nil =>
    intro m st h
    cases m with
    | nil => exact ⟨rfl, rfl⟩
    | cons b m => simp [same_up_to_junk] at h
  | cons a l ih =>
    intro m st h
    cases m with
    | nil => simp [same_up_to_junk] at h
    | cons b m =>
      simp only [same_up_to_junk, Bool.and_eq_true, Bool.or_eq_true, decide_eq_true_eq] at h
      have hs : tokenize_step st a = tokenize_step st b := by
        rcases h.1 with e | e
        · rw [e]
        · exact tokenize_step_junk_eq st a b e.1 e.2
      rw [tokenize_loop_cons, tokenize_loop_cons, hs]
      exact ⟨(ih m _ h.2).1, by simp [(ih m st h.2).2]⟩

theorem same_up_to_junk_tokenize (l m : List Char) (h : same_up_to_junk l m = true) :
    tokenize l = tokenize m := by
  unfold tokenize
  rw [(same_up_to_junk_loop l m _ h).1]

theorem same_up_to_junk_scan (ls : List (List Char)) : ∀ (ms : List (List Char))
    (st : ScanState), List.Forall₂ (fun l m => same_up_to_junk l m = true) ls ms →
    scan st ls = scan st ms := by
  induction ls with
  | nil =>
    intro ms st h
    cases h
    rfl
  | cons l ls ih =>
    intro ms st h
    cases h with
    | cons hl hrest =>
      rename_i m ms2
      have e : scan_line st l = scan_line st m := by
        unfold scan_line
        rw [same_up_to_junk_tokenize l m hl, (same_up_to_junk_loop l m { tokens := [], current := [] } hl).2]
      simp only [scan, e]
      cases scan_line st m with
      | none => rfl
      | some st2 => exact ih _ st2 hrest

/-- C12. Junk characters are interchangeable: replacing, in any line, a
character that is no ASCII letter, no digit and none of '.', '[', ']' by
another such character leaves the tokens unchanged, and so does replacing any
number of them; `tokenize` is a total function, with a result on every line;
"addi r1,r2,10" and "addi r1 r2 10" have the same tokens; programs whose lines
differ only in junk characters assemble alike, and the two lines to the same
word. -/
theorem junk_is_noise :
    (∀ (pre post : List Char) (a b : Char), is_junk a = true → is_junk b = true →
      tokenize (pre ++ a :: post) = tokenize (pre ++ b :: post)) ∧
    (∀ l m : List Char, same_up_to_junk l m = true → tokenize l = tokenize m) ∧
    (∀ line : List Char, ∃ tokens, tokenize line = tokens) ∧
    tokenize "addi r1,r2,10".toList = tokenize "addi r1 r2 10".toList ∧
    (∀ ls ms : List (List Char),
      List.Forall₂ (fun l m => same_up_to_junk l m = true) ls ms →
      assemble ls = assemble ms) ∧
    assemble ["addi r1,r2,10".toList] = some [0xC0120A] ∧
    assemble ["addi r1 r2 10".toList] = some [0xC0120A] := by
  refine ⟨?_, same_up_to_junk_tokenize, fun line => ⟨_, rfl⟩, by decide, ?_, by decide,
    by decide⟩
  · intro pre post a b ha hb
    unfold tokenize
    rw [tokenize_loop_append, tokenize_loop_append, tokenize_loop_cons, tokenize_loop_cons,
      tokenize_step_junk_eq _ a b ha hb]
  · intro ls ms h
    unfold assemble
    rw [same_up_to_junk_scan ls ms _ h]

/-- Instance of C12: a comma for a space in the second line of a program. -/
theorem junk_is_noise_witness :
    assemble ["exit".toList, "addi r1,r2,10".toList]
      = assemble ["exit".toList, "addi r1 r2 10".toList] :=
  junk_is_noise.2.2.2.2.1 _ _
    (List.Forall₂.cons (by decide) (List.Forall₂.cons (by decide) List.Forall₂.nil))

/-! ## What a successful `generate` has read -/

theorem parse_reg_append (tokens : List Token) (v : Nat) (r : List Token)
    (h : parse_reg tokens = some (v, r)) :
    1 ≤ tokens.length ∧ tokens.length = r.length + 1 ∧
    ∀ extra, parse_reg (tokens ++ extra) = some (v, r ++ extra) := by
  cases tokens with
  | nil => simp [parse_reg] at h
  | cons t rest =>
    simp only [parse_reg] at h
    split_ifs at h with hi
    cases hs : stoul (t.str.drop 1) with
    | none => rw [hs] at h; simp at h
    | some x =>
      rw [hs] at h
      simp only [Option.some.injEq, Prod.mk.injEq] at h
      obtain ⟨rfl, rfl⟩ := h
      refine ⟨by simp, by simp, ?_⟩
      intro extra
      simp only [parse_reg, List.cons_append, if_neg hi, hs]

theorem parse_imm_append (tokens : List Token) (labels : Labels) (v : Nat) (r : List Token)
    (h : parse_imm tokens labels = some (v, r)) :
    1 ≤ tokens.length ∧ ∀ extra, parse_imm (tokens ++ extra) labels = some (v, r ++ extra) := by
  cases tokens with
  | nil => simp [parse_imm] at h
  | cons t rest =>
    refine ⟨by simp, ?_⟩
    intro extra
    simp only [parse_imm, List.cons_append] at h ⊢
    by_cases hn : t.type = TokenType.Number
    · simp only [hn, if_true] at h ⊢
      cases hs : stoul t.str with
      | none => rw [hs] at h; simp at h
      | some x =>
        rw [hs] at h
        simp only [Option.some.injEq, Prod.mk.injEq] at h ⊢
        exact ⟨h.1, by rw [h.2]⟩
    · simp only [hn, if_false] at h ⊢
      by_cases hp : t.type = TokenType.Period
      · simp only [hp, if_true] at h ⊢
        cases rest with
        | nil => simp at h
        | cons t2 rest2 =>
          simp only [List.cons_append] at h ⊢
          split_ifs at h with hi
          rw [if_neg hi]
          cases hf : Labels.find labels t2.str with
          | none => rw [hf] at h; simp at h
          | some x =>
            rw [hf] at h
            simp only [Option.some.injEq, Prod.mk.injEq] at h ⊢
            exact ⟨h.1, by rw [h.2]⟩
      · simp [hp] at h

/-- A successful `generate` has found a token for every operand of the layout,
ends in the encoder of the layout, and does not look at what follows the
operands. -/
theorem generate_some (s : OperandsType) (op_code : Nat) (tokens : List Token)
    (labels : Labels) (w : Nat) (h : generate s op_code tokens labels = some w) :
    operand_tokens s ≤ tokens.length ∧
    (∃ r1 r2 r3 imm, encode s op_code r1 r2 r3 imm = some w) ∧
    ∀ extra, generate s op_code (tokens ++ extra) labels = some w := by
  cases s
  case Reg1Imm16 =>
    simp only [generate, Option.bind_eq_bind, Option.bind_eq_some] at h
    obtain ⟨⟨v1, t1⟩, h1, ⟨vi, ti⟩, hi, hg⟩ := h
    obtain ⟨_, l1, a1⟩ := parse_reg_append _ _ _ h1
    obtain ⟨li, ai⟩ := parse_imm_append _ _ _ _ hi
    simp only at hi hg li ai
    refine ⟨by simp only [operand_tokens, reg_count, has_imm, if_true]; omega,
      ⟨v1, 0, 0, vi, hg⟩, ?_⟩
    intro extra
    simp only [generate, Option.bind_eq_bind, a1 extra, Option.some_bind, ai extra, hg]
  case Reg2Imm8 =>
    simp only [generate, Option.bind_eq_bind, Option.bind_eq_some] at h
    obtain ⟨⟨v1, t1⟩, h1, ⟨v2, t2⟩, h2, ⟨vi, ti⟩, hi, hg⟩ := h
    obtain ⟨_, l1, a1⟩ := parse_reg_append _ _ _ h1
    simp only at h2
    obtain ⟨_, l2, a2⟩ := parse_reg_append _ _ _ h2
    simp only at hi
    obtain ⟨li, ai⟩ := parse_imm_append _ _ _ _ hi
    simp only at hg
    refine ⟨by simp only [operand_tokens, reg_count, has_imm, if_true]; omega,
      ⟨v1, v2, 0, vi, hg⟩, ?_⟩
    intro extra
    simp only [generate, Option.bind_eq_bind, a1 extra, Option.some_bind, a2 extra, ai extra, hg]
  case Imm16 =>
    simp only [generate, Option.bind_eq_bind, Option.bind_eq_some] at h
    obtain ⟨⟨vi, ti⟩, hi, hg⟩ := h
    obtain ⟨li, ai⟩ := parse_imm_append _ _ _ _ hi
    simp only at hg
    refine ⟨by simp only [operand_tokens, reg_count, has_imm, if_true]; omega,
      ⟨0, 0, 0, vi, hg⟩, ?_⟩
    intro extra
    simp only [generate, Option.bind_eq_bind, Option.some_bind, ai extra, hg]
  case Reg3 =>
    simp only [generate, Option.bind_eq_bind, Option.bind_eq_some] at h
    obtain ⟨⟨v1, t1⟩, h1, ⟨v2, t2⟩, h2, ⟨v3, t3⟩, h3, hg⟩ := h
    obtain ⟨_, l1, a1⟩ := parse_reg_append _ _ _ h1
    simp only at h2
    obtain ⟨_, l2, a2⟩ := parse_reg_append _ _ _ h2
    simp only at h3
    obtain ⟨_, l3, a3⟩ := parse_reg_append _ _ _ h3
    simp only at hg
    refine ⟨by simp only [operand_tokens, reg_count, has_imm]; simp; omega,
      ⟨v1, v2, v3, 0, hg⟩, ?_⟩
    intro extra
    simp only [generate, Option.bind_eq_bind, a1 extra, Option.some_bind, a2 extra, a3 extra, hg]
  case Reg1Imm8 =>
    simp only [generate, Option.bind_eq_bind, Option.bind_eq_some] at h
    obtain ⟨⟨v1, t1⟩, h1, ⟨vi, ti⟩, hi, hg⟩ := h
    obtain ⟨_, l1, a1⟩ := parse_reg_append _ _ _ h1
    obtain ⟨li, ai⟩ := parse_imm_append _ _ _ _ hi
    simp only at hi hg li ai
    refine ⟨by simp only [operand_tokens, reg_count, has_imm, if_true]; omega,
      ⟨v1, 0, 0, vi, hg⟩, ?_⟩
    intro extra
    simp only [generate, Option.bind_eq_bind, a1 extra, Option.some_bind, ai extra, hg]
  case Reg2 =>
    simp only [generate, Option.bind_eq_bind, Option.bind_eq_some] at h
    obtain ⟨⟨v1, t1⟩, h1, ⟨v2, t2⟩, h2, hg⟩ := h
    obtain ⟨_, l1, a1⟩ := parse_reg_append _ _ _ h1
    simp only at h2
    obtain ⟨_, l2, a2⟩ := parse_reg_append _ _ _ h2
    simp only at hg
    refine ⟨by simp only [operand_tokens, reg_count, has_imm]; simp; omega,
      ⟨v1, v2, 0, 0, hg⟩, ?_⟩
    intro extra
    simp only [generate, Option.bind_eq_bind, a1 extra, Option.some_bind, a2 extra, hg]
  case Imm8 =>
    simp only [generate, Option.bind_eq_bind, Option.bind_eq_some] at h
    obtain ⟨⟨vi, ti⟩, hi, hg⟩ := h
    obtain ⟨li, ai⟩ := parse_imm_append _ _ _ _ hi
    simp only at hg
    refine ⟨by simp only [operand_tokens, reg_count, has_imm, if_true]; omega,
      ⟨0, 0, 0, vi, hg⟩, ?_⟩
    intro extra
    simp only [generate, Option.bind_eq_bind, Option.some_bind, ai extra, hg]
  case Reg1 =>
    simp only [generate, Option.bind_eq_bind, Option.bind_eq_some] at h
    obtain ⟨⟨v1, t1⟩, h1, hg⟩ := h
    obtain ⟨_, l1, a1⟩ := parse_reg_append _ _ _ h1
    simp only at hg
    refine ⟨by simp only [operand_tokens, reg_count, has_imm]; simp; omega,
      ⟨v1, 0, 0, 0, hg⟩, ?_⟩
    intro extra
    simp only [generate, Option.bind_eq_bind, a1 extra, Option.some_bind, hg]
  case Empty =>
    simp only [generate] at h
    exact ⟨by simp [operand_tokens, reg_count, has_imm], ⟨0, 0, 0, 0, h⟩,
      fun extra => by simp only [generate, h]⟩
  case Invalid => simp [generate] at h

/-! ## Lines that end too early, and lines that go on too long -/

/-- C13. Unexpected end of line: a program with an instruction line whose
tokens after the mnemonic end while an operand of the layout is still expected
(fewer tokens than one for each register and one for the immediate, or a
Period as the last token where the immediate stands) is rejected by
`assemble`: no word is returned. -/
theorem unexpected_end_of_line_aborts (lines : List (List Char)) (line : List Char)
    (op : List Char) (rest : List Token) (hm : line ∈ lines)
    (ht : tokenize line = { type := TokenType.Identifier, str := op } :: rest)
    (hend : rest.length < operand_tokens (op_table op).1 ∨
      (has_imm (op_table op).1 = true ∧ ∃ regs p,
        rest = regs ++ [{ type := TokenType.Period, str := p }] ∧
        regs.length = reg_count (op_table op).1)) :
    assemble lines = none := by
  refine assemble_none_of_line lines line hm (by rw [ht]; rfl) ?_
  intro st _
  rw [ht]
  simp only [assemble_impl, ne_eq, not_true_eq_false, if_false]
  rcases hend with hlt | ⟨hi, regs, p, rfl, hr⟩
  · cases hg : generate (op_table op).1 (op_table op).2 rest st.labels with
    | none => rfl
    | some w =>
      have := (generate_some _ _ _ _ _ hg).1
      omega
  · exact generate_imm_none _ _ regs _ st.labels hi hr rfl

/-- Instance of C13: "add r1 r2" lacks its third register. -/
theorem unexpected_end_of_line_aborts_witness :
    assemble ["exit".toList, "add r1 r2".toList] = none :=
  unexpected_end_of_line_aborts ["exit".toList, "add r1 r2".toList] "add r1 r2".toList
    "add".toList
    [{ type := TokenType.Identifier, str := "r1".toList },
     { type := TokenType.Identifier, str := "r2".toList }]
    (by decide) (by decide) (Or.inl (by decide))

/-- C20. Trailing tokens are ignored: when `assemble_impl` returns a word for
a token list under a label table, it returns the same word for that list
followed by any further tokens. -/
theorem trailing_tokens_ignored (tokens extra : List Token) (labels : Labels) (w : Nat)
    (h : assemble_impl tokens labels = some w) :
    assemble_impl (tokens ++ extra) labels = some w := by
  cases tokens with
  | nil => simp [assemble_impl] at h
  | cons front rest =>
    simp only [assemble_impl, List.cons_append] at h ⊢
    split_ifs at h with hi
    rw [if_neg hi]
    exact (generate_some _ _ _ _ _ h).2.2 extra

/-- Instance of C20: "exit r1 99" assembles to the word 0xFFFFFF of "exit", and
"add r1 r2 r3 r4" to the word of "add r1 r2 r3". -/
theorem trailing_tokens_ignored_witness :
    assemble_impl (tokenize "exit".toList ++ tokenize "r1 99".toList) [] = some 0xFFFFFF ∧
    tokenize "exit".toList ++ tokenize "r1 99".toList = tokenize "exit r1 99".toList ∧
    assemble ["exit r1 99".toList] = some [0xFFFFFF] ∧
    assemble ["exit".toList] = some [0xFFFFFF] ∧
    assemble ["add r1 r2 r3 r4".toList] = some [0xE00123] ∧
    assemble ["add r1 r2 r3".toList] = some [0xE00123] :=
  ⟨trailing_tokens_ignored (tokenize "exit".toList) (tokenize "r1 99".toList) [] 0xFFFFFF
    (by decide), by decide, by decide, by decide, by decide, by decide⟩

/-! ## The words in the order of the lines -/

/-- C15. Order is preserved: whenever `assemble` succeeds, the first pass over
all the lines has left a label table, there are as many words as instruction
lines, and for every i the i-th word is `assemble_impl` of the tokens of the
i-th instruction line under that complete table. -/
theorem words_in_order (lines : List (List Char)) (ws : List Nat)
    (h : assemble lines = some ws) :
    ∃ st, scan { instruction_tokens := [], labels := [] } lines = some st ∧
      ws.length = (instruction_lines lines).length ∧
      ∀ (i : Nat) (t : List Token), (instruction_lines lines)[i]? = some t →
        ws[i]? = assemble_impl t st.labels ∧ ∃ w, ws[i]? = some w := by
  obtain ⟨st, hs, _, he⟩ := assemble_some lines ws h
  refine ⟨st, hs, emit_length _ _ ws he, ?_⟩
  intro i t hi
  obtain ⟨w, hw, ha⟩ := emit_getElem st.labels _ ws he i t hi
  exact ⟨by rw [hw, ha], w, hw⟩

/-- Instance of C15: the reference to "end" in line 0 is resolved with the
table of the whole program, in which "end" is 2. -/
theorem words_in_order_witness :
    ∃ st, scan { instruction_tokens := [], labels := [] }
        ["jmpi .end".toList, "exit".toList, ".end".toList, "exit".toList] = some st ∧
      [0xD00002, 0xFFFFFF, 0xFFFFFF].length
        = (instruction_lines
            ["jmpi .end".toList, "exit".toList, ".end".toList, "exit".toList]).length ∧
      ∀ (i : Nat) (t : List Token),
        (instruction_lines
          ["jmpi .end".toList, "exit".toList, ".end".toList, "exit".toList])[i]? = some t →
        [0xD00002, 0xFFFFFF, 0xFFFFFF][i]? = assemble_impl t st.labels ∧
        ∃ w, [0xD00002, 0xFFFFFF, 0xFFFFFF][i]? = some w :=
  words_in_order ["jmpi .end".toList, "exit".toList, ".end".toList, "exit".toList]
    [0xD00002, 0xFFFFFF, 0xFFFFFF] (by decide)

/-! ## The range checks of the encoders -/

/-- C16. Each generator returns a word exactly on in-range arguments: a word
is returned if and only if the opcode is below the bound of the layout, every
register is below 16 and the immediate is below 2^16 (Reg1Imm16, Imm16) or 2^8
(Reg2Imm8, Reg1Imm8, Imm8); otherwise the assertion fails and nothing is
returned. -/
theorem generators_fail_fast :
    (∀ opcode reg imm,
      ((∃ w, generate_reg1_imm16 opcode reg imm = some w)
        ↔ opcode < 0xC ∧ reg < 16 ∧ imm < 2 ^ 16) ∧
      (generate_reg1_imm16 opcode reg imm = none
        ↔ ¬ (opcode < 0xC ∧ reg < 16 ∧ imm < 2 ^ 16))) ∧
    (∀ opcode reg_1 reg_2 imm,
      ((∃ w, generate_reg2_imm8 opcode reg_1 reg_2 imm = some w)
        ↔ opcode < 0x10 ∧ reg_1 < 16 ∧ reg_2 < 16 ∧ imm < 2 ^ 8) ∧
      (generate_reg2_imm8 opcode reg_1 reg_2 imm = none
        ↔ ¬ (opcode < 0x10 ∧ reg_1 < 16 ∧ reg_2 < 16 ∧ imm < 2 ^ 8))) ∧
    (∀ opcode imm,
      ((∃ w, generate_imm16 opcode imm = some w) ↔ opcode < 0x10 ∧ imm < 2 ^ 16) ∧
      (generate_imm16 opcode imm = none ↔ ¬ (opcode < 0x10 ∧ imm < 2 ^ 16))) ∧
    (∀ opcode reg_dest reg_src1 reg_src2,
      ((∃ w, generate_reg3 opcode reg_dest reg_src1 reg_src2 = some w)
        ↔ opcode < 0x100 ∧ reg_dest < 16 ∧ reg_src1 < 16 ∧ reg_src2 < 16) ∧
      (generate_reg3 opcode reg_dest reg_src1 reg_src2 = none
        ↔ ¬ (opcode < 0x100 ∧ reg_dest < 16 ∧ reg_src1 < 16 ∧ reg_src2 < 16))) ∧
    (∀ opcode reg imm,
      ((∃ w, generate_reg1_imm8 opcode reg imm = some w)
        ↔ opcode < 0x80 ∧ reg < 16 ∧ imm < 2 ^ 8) ∧
      (generate_reg1_imm8 opcode reg imm = none
        ↔ ¬ (opcode < 0x80 ∧ reg < 16 ∧ imm < 2 ^ 8))) ∧
    (∀ opcode reg_1 reg_2,
      ((∃ w, generate_reg2 opcode reg_1 reg_2 = some w)
        ↔ opcode < 0x400 ∧ reg_1 < 16 ∧ reg_2 < 16) ∧
      (generate_reg2 opcode reg_1 reg_2 = none
        ↔ ¬ (opcode < 0x400 ∧ reg_1 < 16 ∧ reg_2 < 16))) ∧
    (∀ opcode imm,
      ((∃ w, generate_imm8 opcode imm = some w) ↔ opcode < 0x200 ∧ imm < 2 ^ 8) ∧
      (generate_imm8 opcode imm = none ↔ ¬ (opcode < 0x200 ∧ imm < 2 ^ 8))) ∧
    (∀ opcode reg,
      ((∃ w, generate_reg1 opcode reg = some w) ↔ opcode < 0x1000 ∧ reg < 16) ∧
      (generate_reg1 opcode reg = none ↔ ¬ (opcode < 0x1000 ∧ reg < 16))) ∧
    (∀ opcode,
      ((∃ w, generate_no_operands opcode = some w) ↔ opcode < 0x10000) ∧
      (generate_no_operands opcode = none ↔ ¬ opcode < 0x10000)) := by
  refine ⟨?_, ?_, ?_, ?_, ?_, ?_, ?_, ?_, ?_⟩
  · intro opcode reg imm
    by_cases hc : opcode < 0xC ∧ reg < 16 ∧ imm < 2 ^ 16 <;>
      simp [generate_reg1_imm16, general_reg_count, hc]
  · intro opcode reg_1 reg_2 imm
    by_cases hc : opcode < 0x10 ∧ reg_1 < 16 ∧ reg_2 < 16 ∧ imm < 2 ^ 8 <;>
      simp [generate_reg2_imm8, general_reg_count, hc]
  · intro opcode imm
    by_cases hc : opcode < 0x10 ∧ imm < 2 ^ 16 <;> simp [generate_imm16, hc]
  · intro opcode reg_dest reg_src1 reg_src2
    by_cases hc : opcode < 0x100 ∧ reg_dest < 16 ∧ reg_src1 < 16 ∧ reg_src2 < 16 <;>
      simp [generate_reg3, general_reg_count, hc]
  · intro opcode reg imm
    by_cases hc : opcode < 0x80 ∧ reg < 16 ∧ imm < 2 ^ 8 <;>
      simp [generate_reg1_imm8, general_reg_count, hc]
  · intro opcode reg_1 reg_2
    by_cases hc : opcode < 0x400 ∧ reg_1 < 16 ∧ reg_2 < 16 <;>
      simp [generate_reg2, general_reg_count, hc]
  · intro opcode imm
    by_cases hc : opcode < 0x200 ∧ imm < 2 ^ 8 <;> simp [generate_imm8, hc]
  · intro opcode reg
    by_cases hc : opcode < 0x1000 ∧ reg < 16 <;> simp [generate_reg1, general_reg_count, hc]
  · intro opcode
    by_cases hc : opcode < 0x10000 <;> simp [generate_no_operands, hc]

/-- Instance of C16: register 16 and the opcode 0x100 are refused by
`generate_reg3`, the largest arguments are accepted. -/
theorem generators_fail_fast_witness :
    generate_reg3 0 16 0 0 = none ∧ generate_reg3 0x100 0 0 0 = none ∧
    ∃ w, generate_reg3 0xFF 15 15 15 = some w :=
  ⟨(generators_fail_fast.2.2.2.1 0 16 0 0).2.2 (by decide),
   (generators_fail_fast.2.2.2.1 0x100 0 0 0).2.2 (by decide),
   (generators_fail_fast.2.2.2.1 0xFF 15 15 15).1.2 (by decide)⟩

/-! ## The mnemonic table -/

theorem encode_in_range (s : OperandsType) (opcode r1 r2 r3 imm : Nat)
    (hs : s ≠ OperandsType.Invalid) (ho : opcode < opcode_bound s) (h1 : r1 < 16)
    (h2 : r2 < 16) (h3 : r3 < 16) (hi : imm < imm_bound s) :
    ∃ w, encode s opcode r1 r2 r3 imm = some w := by
  cases s <;> simp only [opcode_bound, imm_bound] at ho hi <;>
    first
      | exact absurd rfl hs
      | simp [encode, generate_reg1_imm16, generate_reg2_imm8, generate_imm16, generate_reg3,
          generate_reg1_imm8, generate_reg2, generate_imm8, generate_reg1,
          generate_no_operands, general_reg_count, ho, h1, h2, h3, hi]

/-- C14. The mnemonic table is legal: each of the 23 mnemonics has a layout
(not Invalid) and an opcode below the bound that the encoder of that layout
asserts; so with registers below 16 and an immediate in the range of the
layout, the encoder reached from `assemble_impl` returns a word: its opcode
check never fails for a known mnemonic. -/
theorem mnemonic_table_legal :
    mnemonics.length = 23 ∧
    (∀ op ∈ mnemonics, (op_table op).1 ≠ OperandsType.Invalid ∧
      (op_table op).2 < opcode_bound (op_table op).1) ∧
    (∀ op ∈ mnemonics, ∀ r1 r2 r3 imm, r1 < 16 → r2 < 16 → r3 < 16 →
      imm < imm_bound (op_table op).1 →
      ∃ w, encode (op_table op).1 (op_table op).2 r1 r2 r3 imm = some w) := by
  have h : ∀ op ∈ mnemonics, (op_table op).1 ≠ OperandsType.Invalid ∧
      (op_table op).2 < opcode_bound (op_table op).1 := by decide
  refine ⟨rfl, h, ?_⟩
  intro op hop r1 r2 r3 imm h1 h2 h3 hi
  exact encode_in_range _ _ r1 r2 r3 imm (h op hop).1 (h op hop).2 h1 h2 h3 hi

/-- Instance of C14: "neg" has the largest opcode of its layout in the table,
0x101 below 0x400, and is encoded with the registers 15 and 15. -/
theorem mnemonic_table_legal_witness :
    ∃ w, encode (op_table "neg".toList).1 (op_table "neg".toList).2 15 15 0 0 = some w :=
  mnemonic_table_legal.2.2 "neg".toList (by decide) 15 15 0 0 (by decide) (by decide)
    (by decide) (by decide)

theorem encode_fields (s : OperandsType) (opcode r1 r2 r3 imm w : Nat)
    (h : encode s opcode r1 r2 r3 imm = some w) :
    selector s w = true ∧ opcode_field s w = opcode := by
  have hg : generated_by s w := by
    cases s <;> simp only [encode] at h
    case Reg1Imm16 => exact ⟨_, _, _, h⟩
    case Reg2Imm8 => exact ⟨_, _, _, _, h⟩
    case Imm16 => exact ⟨_, _, h⟩
    case Reg3 => exact ⟨_, _, _, _, h⟩
    case Reg1Imm8 => exact ⟨_, _, _, h⟩
    case Reg2 => exact ⟨_, _, _, h⟩
    case Imm8 => exact ⟨_, _, h⟩
    case Reg1 => exact ⟨_, _, h⟩
    case Empty => exact ⟨_, h⟩
    case Invalid => exact Option.noConfusion h
  refine ⟨(generated_by_selector s w hg).2, ?_⟩
  cases s <;> simp only [encode] at h <;> simp only [opcode_field]
  case Reg1Imm16 =>
    by_cases hc : opcode < 0xC ∧ r1 < general_reg_count ∧ imm < 0x10000
    · rw [generate_reg1_imm16_eq opcode r1 imm hc.1 hc.2.1 hc.2.2] at h
      have e := Option.some.inj h
      have := hc.1; have := hc.2.1; have := hc.2.2
      simp only [general_reg_count] at *
      subst e
      rw [bits_eq]; norm_num; omega
    · simp [generate_reg1_imm16, hc] at h
  case Reg2Imm8 =>
    by_cases hc : opcode < 0x10 ∧ r1 < general_reg_count ∧ r2 < general_reg_count ∧ imm < 0x100
    · rw [generate_reg2_imm8_eq opcode r1 r2 imm hc.1 hc.2.1 hc.2.2.1 hc.2.2.2] at h
      have e := Option.some.inj h
      have := hc.1; have := hc.2.1; have := hc.2.2.1; have := hc.2.2.2
      simp only [general_reg_count] at *
      subst e
      rw [bits_eq]; norm_num; omega
    · simp [generate_reg2_imm8, hc] at h
  case Imm16 =>
    by_cases hc : opcode < 0x10 ∧ imm < 0x10000
    · rw [generate_imm16_eq opcode imm hc.1 hc.2] at h
      have e := Option.some.inj h
      have := hc.1; have := hc.2
      subst e
      rw [bits_eq]; norm_num; omega
    · simp [generate_imm16, hc] at h
  case Reg3 =>
    by_cases hc : opcode < 0x100 ∧ r1 < general_reg_count ∧ r2 < general_reg_count
        ∧ r3 < general_reg_count
    · rw [generate_reg3_eq opcode r1 r2 r3 hc.1 hc.2.1 hc.2.2.1 hc.2.2.2] at h
      have e := Option.some.inj h
      have := hc.1; have := hc.2.1; have := hc.2.2.1; have := hc.2.2.2
      simp only [general_reg_count] at *
      subst e
      rw [bits_eq]; norm_num; omega
    · simp [generate_reg3, hc] at h
  case Reg1Imm8 =>
    by_cases hc : opcode < 0x80 ∧ r1 < general_reg_count ∧ imm < 0x100
    · rw [generate_reg1_imm8_eq opcode r1 imm hc.1 hc.2.1 hc.2.2] at h
      have e := Option.some.inj h
      have := hc.1; have := hc.2.1; have := hc.2.2
      simp only [general_reg_count] at *
      subst e
      rw [bits_eq]; norm_num; omega
    · simp [generate_reg1_imm8, hc] at h
  case Reg2 =>
    by_cases hc : opcode < 0x400 ∧ r1 < general_reg_count ∧ r2 < general_reg_count
    · rw [generate_reg2_eq opcode r1 r2 hc.1 hc.2.1 hc.2.2] at h
      have e := Option.some.inj h
      have := hc.1; have := hc.2.1; have := hc.2.2
      simp only [general_reg_count] at *
      subst e
      rw [bits_eq]; norm_num; omega
    · simp [generate_reg2, hc] at h
  case Imm8 =>
    by_cases hc : opcode < 0x200 ∧ imm < 0x100
    · rw [generate_imm8_eq opcode imm hc.1 hc.2] at h
      have e := Option.some.inj h
      have := hc.1; have := hc.2
      subst e
      rw [bits_eq]; norm_num; omega
    · simp [generate_imm8, hc] at h
  case Reg1 =>
    by_cases hc : opcode < 0x1000 ∧ r1 < general_reg_count
    · rw [generate_reg1_eq opcode r1 hc.1 hc.2] at h
      have e := Option.some.inj h
      have := hc.1; have := hc.2
      simp only [general_reg_count] at *
      subst e
      rw [bits_eq]; norm_num; omega
    · simp [generate_reg1, hc] at h
  case Empty =>
    by_cases hc : opcode < 0x10000
    · rw [generate_no_operands_eq opcode hc] at h
      have e := Option.some.inj h
      subst e
      rw [bits_eq]; norm_num; omega
    · simp [generate_no_operands, hc] at h
  case Invalid => exact Option.noConfusion h

theorem op_table_injective : ∀ m1 ∈ mnemonics, ∀ m2 ∈ mnemonics,
    op_table m1 = op_table m2 → m1 = m2 := by
  decide

theorem assemble_impl_some (op : List Char) (rest : List Token) (labels : Labels) (w : Nat)
    (h : assemble_impl ({ type := TokenType.Identifier, str := op } :: rest) labels = some w) :
    op ∈ mnemonics ∧ selector (op_table op).1 w = true ∧
      opcode_field (op_table op).1 w = (op_table op).2 := by
  simp only [assemble_impl, ne_eq, not_true_eq_false, if_false] at h
  obtain ⟨r1, r2, r3, imm, he⟩ := (generate_some _ _ _ _ _ h).2.1
  refine ⟨?_, encode_fields _ _ _ _ _ _ _ he⟩
  by_contra hn
  rw [op_table_invalid op hn] at he
  exact Option.noConfusion he

/-- C19. The mnemonic table is injective: two different mnemonics never have
the same layout and opcode; so two instruction lines with different
mnemonics that are both assembled, under any label tables and with any
operands, give different words. -/
theorem mnemonic_table_injective :
    (∀ m1 ∈ mnemonics, ∀ m2 ∈ mnemonics, m1 ≠ m2 → op_table m1 ≠ op_table m2) ∧
    (∀ (m1 m2 : List Char) (rest1 rest2 : List Token) (labels1 labels2 : Labels)
       (w1 w2 : Nat), m1 ≠ m2 →
      assemble_impl ({ type := TokenType.Identifier, str := m1 } :: rest1) labels1 = some w1 →
      assemble_impl ({ type := TokenType.Identifier, str := m2 } :: rest2) labels2 = some w2 →
      w1 ≠ w2) := by
  refine ⟨fun m1 h1 m2 h2 hne e => hne (op_table_injective m1 h1 m2 h2 e), ?_⟩
  intro m1 m2 rest1 rest2 labels1 labels2 w1 w2 hne h1 h2 e
  subst e
  obtain ⟨k1, s1, o1⟩ := assemble_impl_some m1 rest1 labels1 w1 h1
  obtain ⟨k2, s2, o2⟩ := assemble_impl_some m2 rest2 labels2 w1 h2
  have es := selector_exclusive _ _ w1 s1 s2
  refine hne (op_table_injective m1 k1 m2 k2 (Prod.ext es ?_))
  rw [← o1, ← o2, es]

/-- Instance of C19: "add r1 r2 r3" and "sub r1 r2 r3" differ only in the
mnemonic and give the words 0xE00123 and 0xE01123. -/
theorem mnemonic_table_injective_witness :
    assemble_impl (tokenize "add r1 r2 r3".toList) [] = some 0xE00123 ∧
    assemble_impl (tokenize "sub r1 r2 r3".toList) [] = some 0xE01123 ∧
    (0xE00123 : Nat) ≠ 0xE01123 :=
  ⟨by decide, by decide,
   mnemonic_table_injective.2 "add".toList "sub".toList
    [{ type := TokenType.Identifier, str := "r1".toList },
     { type := TokenType.Identifier, str := "r2".toList },
     { type := TokenType.Identifier, str := "r3".toList }]
    [{ type := TokenType.Identifier, str := "r1".toList },
     { type := TokenType.Identifier, str := "r2".toList },
     { type := TokenType.Identifier, str := "r3".toList }] [] [] 0xE00123 0xE01123
    (by decide) (by decide) (by decide)⟩

end GPVRC
